import Mathlib

/-!
Verification of the discrete-event traffic-shaping simulators (Lab 5):
leaky bucket (packet counting), leaky bucket (bit counting), token bucket
(packet counting), token bucket (bit counting) and the single-server
packet switch.

The Python sources are embedded shallowly:
* times, rates and sizes become rationals (the sources only add, subtract,
  multiply, divide and compare floats; no claim here depends on rounding);
* every call to the seeded numpy generator is determinized into an input
  stream of draws, one stream per call site.  A call
  np.random.exponential(scale) is modelled as scale * u where u is the
  next draw of the corresponding stream (numpy scales a unit-exponential
  draw by the scale argument, and raises ValueError for a negative scale);
  np.random.choice(sizes) is modelled as the next draw of a size stream;
* the heapq priority queue is modelled as a list kept sorted by event
  time with a stable insertion (ties keep the earlier-inserted event
  first); popping takes the head, a minimum-time event;
* the run loops are modelled with explicit fuel; each loop also returns
  the list of timestamps of the events it actually dispatched.
-/

/-- Errors the Python runtime can raise in the embedded fragments. -/
inductive SimError where
  | valueError
  | zeroDivisionError
deriving DecidableEq

/-- Check whether an Except value is a success. -/
def exceptOk {ε α : Type} : Except ε α → Bool
  | .ok _ => true
  | .error _ => false

/-- np.random.exponential scale, determinized: the draw u is the unit
exponential sample; numpy raises ValueError when scale is negative and
returns scale * u otherwise (scale 0 yields 0). -/
def np_exponential (scale u : ℚ) : Except SimError ℚ :=
  if scale < 0 then .error .valueError else .ok (scale * u)

/-- Event kinds used by the four bucket models (the sources tag events
with the strings PACKET_ARRIVAL, CLOCK_TICK, TOKEN_GENERATION). -/
inductive EType where
  | packetArrival
  | clockTick
  | tokenGeneration
deriving DecidableEq

/-- Event of the bucket models: a timestamp and a kind (their data field
is always None). -/
structure Event where
  time : ℚ
  etype : EType
deriving DecidableEq

/-- heapq.heappush modelled on a time-sorted list: stable insertion,
an event with a tied timestamp goes after the already queued ones. -/
def insertByTime {α : Type} (t : α → ℚ) (e : α) : List α → List α
  | [] => [e]
  | x :: xs => if t x ≤ t e then x :: insertByTime t e xs else e :: x :: xs

/-! ## Part 1: leaky bucket, packet counting (lab5_part1_leaky_bucket.py) -/

/-- State of LeakyBucketSimulator.  packet_queue holds the stored
arrival timestamps, event_queue is the heap, rng/rng_idx determinize
np.random.exponential (unit draws). -/
structure LBState where
  bucket_size : ℤ
  output_rate : ℚ
  arrival_rate : ℚ
  run_time : ℚ
  current_time : ℚ
  event_queue : List Event
  packet_queue : List ℚ
  tick_period : ℚ
  packets_arrived : ℕ
  packets_dropped : ℕ
  packets_transmitted : ℕ
  total_queue_occupancy : ℚ
  last_event_time : ℚ
  rng : ℕ → ℚ
  rng_idx : ℕ

/-- The state built by LeakyBucketSimulator.__init__ (its field writes,
including tick_period = 1/output_rate). -/
def lb_state0 (bucket_size : ℤ) (output_rate arrival_rate run_time : ℚ)
    (rng : ℕ → ℚ) : LBState :=
  { bucket_size := bucket_size
    output_rate := output_rate
    arrival_rate := arrival_rate
    run_time := run_time
    current_time := 0
    event_queue := []
    packet_queue := []
    tick_period := 1 / output_rate
    packets_arrived := 0
    packets_dropped := 0
    packets_transmitted := 0
    total_queue_occupancy := 0
    last_event_time := 0
    rng := rng
    rng_idx := 0 }

/-- LeakyBucketSimulator.__init__: performs no parameter validation; the
only failure is the ZeroDivisionError from computing 1.0/output_rate. -/
def lb_init (bucket_size : ℤ) (output_rate arrival_rate run_time : ℚ)
    (rng : ℕ → ℚ) : Except SimError LBState :=
  if output_rate = 0 then .error .zeroDivisionError
  else .ok (lb_state0 bucket_size output_rate arrival_rate run_time rng)

/-- schedule_event: heappush. -/
def lb_schedule (s : LBState) (e : Event) : LBState :=
  { s with event_queue := insertByTime Event.time e s.event_queue }

/-- generate_exponential: one draw of the determinized stream, scaled by
the mean (np.random.exponential mean). -/
def lb_generate_exponential (s : LBState) (mean : ℚ) : ℚ × LBState :=
  (mean * s.rng s.rng_idx, { s with rng_idx := s.rng_idx + 1 })

/-- packet_arrival_event. -/
def lb_packet_arrival_event (s : LBState) : LBState :=
  let s := { s with packets_arrived := s.packets_arrived + 1 }
  let s :=
    if (s.packet_queue.length : ℤ) < s.bucket_size then
      { s with packet_queue := s.packet_queue ++ [s.current_time] }
    else
      { s with packets_dropped := s.packets_dropped + 1 }
  let d := lb_generate_exponential s (1 / s.arrival_rate)
  let next_arrival_time := d.2.current_time + d.1
  if next_arrival_time < d.2.run_time then
    lb_schedule d.2 { time := next_arrival_time, etype := .packetArrival }
  else d.2

/-- clock_tick_event. -/
def lb_clock_tick_event (s : LBState) : LBState :=
  let s :=
    match s.packet_queue with
    | [] => s
    | _ :: rest =>
      { s with packet_queue := rest,
               packets_transmitted := s.packets_transmitted + 1 }
  let next_tick_time := s.current_time + s.tick_period
  if next_tick_time < s.run_time then
    lb_schedule s { time := next_tick_time, etype := .clockTick }
  else s

/-- update_statistics: integrates with the state's current_time, which
the run loop has not yet advanced to the popped event's time. -/
def lb_update_statistics (s : LBState) : LBState :=
  { s with
    total_queue_occupancy := s.total_queue_occupancy +
      (s.packet_queue.length : ℚ) * (s.current_time - s.last_event_time)
    last_event_time := s.current_time }

/-- Event dispatch of the run loop (string comparison on the kind). -/
def lb_dispatch (e : Event) (s : LBState) : LBState :=
  match e.etype with
  | .packetArrival => lb_packet_arrival_event s
  | .clockTick => lb_clock_tick_event s
  | .tokenGeneration => s

/-- The seeding done at the top of run(): the first arrival is scheduled
with no horizon check, then the first clock tick at time 0. -/
def lb_seed (s : LBState) : LBState :=
  let d := lb_generate_exponential s (1 / s.arrival_rate)
  let s := lb_schedule d.2 { time := d.1, etype := .packetArrival }
  lb_schedule s { time := 0, etype := .clockTick }

/-- The event loop of run(), with fuel.  Returns the final state and the
timestamps of the dispatched events in dispatch order.  Mirrors the
source: pop, update statistics, advance the clock, break when the new
current time is at or past the horizon, otherwise dispatch. -/
def lb_run : ℕ → LBState → LBState × List ℚ
  | 0, s => (s, [])
  | fuel + 1, s =>
    match s.event_queue with
    | [] => (s, [])
    | e :: rest =>
      let s1 := lb_update_statistics { s with event_queue := rest }
      let s2 := { s1 with current_time := e.time }
      if s2.run_time ≤ s2.current_time then (s2, [])
      else
        let r := lb_run fuel (lb_dispatch e s2)
        (r.1, e.time :: r.2)

/-- Result record of get_results. -/
structure LBResults where
  packets_arrived : ℕ
  packets_dropped : ℕ
  packets_transmitted : ℕ
  loss_rate : ℚ
  mean_output_rate : ℚ
  avg_queue_length : ℚ
deriving DecidableEq

/-- get_results. -/
def lb_get_results (s : LBState) : LBResults :=
  { packets_arrived := s.packets_arrived
    packets_dropped := s.packets_dropped
    packets_transmitted := s.packets_transmitted
    loss_rate := if 0 < s.packets_arrived then
        (s.packets_dropped : ℚ) / (s.packets_arrived : ℚ) else 0
    mean_output_rate := (s.packets_transmitted : ℚ) / s.run_time
    avg_queue_length := s.total_queue_occupancy / s.run_time }

/-! ## Part 2: leaky bucket, bit counting (lab5_part2_bit_counting.py) -/

/-- Packet of the bit-counting models: arrival time and size in bits. -/
structure BPacket where
  arrival_time : ℚ
  size : ℚ
deriving DecidableEq

/-- State of BitCountingLeakyBucket.  size_draws/size_idx determinize
np.random.choice(packet_sizes) (each draw is the chosen size). -/
structure BBState where
  output_rate : ℚ
  arrival_rate : ℚ
  packet_sizes : List ℚ
  bucket_size : ℤ
  clock_period : ℚ
  run_time : ℚ
  n : ℚ
  current_time : ℚ
  event_queue : List Event
  packet_queue : List BPacket
  bit_counter : ℚ
  packets_arrived : ℕ
  packets_dropped : ℕ
  packets_transmitted : ℕ
  bits_transmitted : ℚ
  total_queue_occupancy : ℚ
  last_event_time : ℚ
  rng : ℕ → ℚ
  rng_idx : ℕ
  size_draws : ℕ → ℚ
  size_idx : ℕ

/-- BitCountingLeakyBucket.__init__ (no validation; n = output_rate *
clock_period). -/
def bb_state0 (output_rate arrival_rate : ℚ) (packet_sizes : List ℚ)
    (bucket_size : ℤ) (clock_period run_time : ℚ)
    (rng size_draws : ℕ → ℚ) : BBState :=
  { output_rate := output_rate
    arrival_rate := arrival_rate
    packet_sizes := packet_sizes
    bucket_size := bucket_size
    clock_period := clock_period
    run_time := run_time
    n := output_rate * clock_period
    current_time := 0
    event_queue := []
    packet_queue := []
    bit_counter := 0
    packets_arrived := 0
    packets_dropped := 0
    packets_transmitted := 0
    bits_transmitted := 0
    total_queue_occupancy := 0
    last_event_time := 0
    rng := rng
    rng_idx := 0
    size_draws := size_draws
    size_idx := 0 }

/-- schedule_event. -/
def bb_schedule (s : BBState) (e : Event) : BBState :=
  { s with event_queue := insertByTime Event.time e s.event_queue }

/-- generate_exponential. -/
def bb_generate_exponential (s : BBState) (mean : ℚ) : ℚ × BBState :=
  (mean * s.rng s.rng_idx, { s with rng_idx := s.rng_idx + 1 })

/-- generate_packet_size: np.random.choice(self.packet_sizes). -/
def bb_generate_packet_size (s : BBState) : ℚ × BBState :=
  (s.size_draws s.size_idx, { s with size_idx := s.size_idx + 1 })

/-- packet_arrival_event. -/
def bb_packet_arrival_event (s : BBState) : BBState :=
  let s := { s with packets_arrived := s.packets_arrived + 1 }
  let ps := bb_generate_packet_size s
  let pkt : BPacket := { arrival_time := ps.2.current_time, size := ps.1 }
  let s :=
    if (ps.2.packet_queue.length : ℤ) < ps.2.bucket_size then
      { ps.2 with packet_queue := ps.2.packet_queue ++ [pkt] }
    else
      { ps.2 with packets_dropped := ps.2.packets_dropped + 1 }
  let d := bb_generate_exponential s (1 / s.arrival_rate)
  let next_arrival_time := d.2.current_time + d.1
  if next_arrival_time < d.2.run_time then
    bb_schedule d.2 { time := next_arrival_time, etype := .packetArrival }
  else d.2

/-- The transmission loop inside clock_tick_event: given the counter and
the queue, returns (final counter, remaining queue, packets sent, bits
sent).  Transmits while the head packet fits in the counter. -/
def bb_drain : ℚ → List BPacket → ℚ × List BPacket × ℕ × ℚ
  | c, [] => (c, [], 0, 0)
  | c, p :: rest =>
    if p.size ≤ c then
      let r := bb_drain (c - p.size) rest
      (r.1, r.2.1, r.2.2.1 + 1, r.2.2.2 + p.size)
    else (c, p :: rest, 0, 0)

/-- clock_tick_event: reset the counter to n, transmit while the counter
covers the head packet, drop the residual counter, reschedule the next
tick when it lands before the horizon. -/
def bb_clock_tick_event (s : BBState) : BBState :=
  let r := bb_drain s.n s.packet_queue
  let s := { s with bit_counter := r.1
                    packet_queue := r.2.1
                    packets_transmitted := s.packets_transmitted + r.2.2.1
                    bits_transmitted := s.bits_transmitted + r.2.2.2 }
  let next_tick_time := s.current_time + s.clock_period
  if next_tick_time < s.run_time then
    bb_schedule s { time := next_tick_time, etype := .clockTick }
  else s

/-- update_statistics (same pre-advance integration as part 1). -/
def bb_update_statistics (s : BBState) : BBState :=
  { s with
    total_queue_occupancy := s.total_queue_occupancy +
      (s.packet_queue.length : ℚ) * (s.current_time - s.last_event_time)
    last_event_time := s.current_time }

/-- Event dispatch. -/
def bb_dispatch (e : Event) (s : BBState) : BBState :=
  match e.etype with
  | .packetArrival => bb_packet_arrival_event s
  | .clockTick => bb_clock_tick_event s
  | .tokenGeneration => s

/-- Seeding in run(): unchecked first arrival, first tick at 0. -/
def bb_seed (s : BBState) : BBState :=
  let d := bb_generate_exponential s (1 / s.arrival_rate)
  let s := bb_schedule d.2 { time := d.1, etype := .packetArrival }
  bb_schedule s { time := 0, etype := .clockTick }

/-- run() event loop with fuel, also returning dispatched timestamps. -/
def bb_run : ℕ → BBState → BBState × List ℚ
  | 0, s => (s, [])
  | fuel + 1, s =>
    match s.event_queue with
    | [] => (s, [])
    | e :: rest =>
      let s1 := bb_update_statistics { s with event_queue := rest }
      let s2 := { s1 with current_time := e.time }
      if s2.run_time ≤ s2.current_time then (s2, [])
      else
        let r := bb_run fuel (bb_dispatch e s2)
        (r.1, e.time :: r.2)

/-- Result record of part 2 get_results. -/
structure BBResults where
  packets_arrived : ℕ
  packets_dropped : ℕ
  packets_transmitted : ℕ
  bits_transmitted : ℚ
  loss_rate : ℚ
  mean_output_rate_bps : ℚ
  mean_output_rate_pps : ℚ
  avg_queue_length : ℚ
deriving DecidableEq

/-- part 2 get_results. -/
def bb_get_results (s : BBState) : BBResults :=
  { packets_arrived := s.packets_arrived
    packets_dropped := s.packets_dropped
    packets_transmitted := s.packets_transmitted
    bits_transmitted := s.bits_transmitted
    loss_rate := if 0 < s.packets_arrived then
        (s.packets_dropped : ℚ) / (s.packets_arrived : ℚ) else 0
    mean_output_rate_bps := s.bits_transmitted / s.run_time
    mean_output_rate_pps := (s.packets_transmitted : ℚ) / s.run_time
    avg_queue_length := s.total_queue_occupancy / s.run_time }

/-! ## Part 3a: token bucket, packet counting (lab5_part3a_token_bucket.py) -/

/-- State of TokenBucketSimulator.  data_bucket stores the queued
packets' arrival times; token_bucket is the integer token count. -/
structure TBState where
  token_bucket_size : ℤ
  data_bucket_size : ℤ
  token_rate : ℚ
  arrival_rate : ℚ
  run_time : ℚ
  token_bucket : ℤ
  data_bucket : List ℚ
  packets_arrived : ℕ
  packets_lost : ℕ
  packets_transmitted : ℕ
  current_time : ℚ
  last_stat_time : ℚ
  total_queue_time : ℚ
  event_queue : List Event
  rng : ℕ → ℚ
  rng_idx : ℕ

/-- TokenBucketSimulator.__init__ (no validation, no division). -/
def tb_state0 (token_bucket_size data_bucket_size : ℤ)
    (token_rate arrival_rate run_time : ℚ) (rng : ℕ → ℚ) : TBState :=
  { token_bucket_size := token_bucket_size
    data_bucket_size := data_bucket_size
    token_rate := token_rate
    arrival_rate := arrival_rate
    run_time := run_time
    token_bucket := 0
    data_bucket := []
    packets_arrived := 0
    packets_lost := 0
    packets_transmitted := 0
    current_time := 0
    last_stat_time := 0
    total_queue_time := 0
    event_queue := []
    rng := rng
    rng_idx := 0 }

/-- schedule_event. -/
def tb_schedule (s : TBState) (e : Event) : TBState :=
  { s with event_queue := insertByTime Event.time e s.event_queue }

/-- generate_exponential. -/
def tb_generate_exponential (s : TBState) (mean : ℚ) : ℚ × TBState :=
  (mean * s.rng s.rng_idx, { s with rng_idx := s.rng_idx + 1 })

/-- try_transmit_packet: while the data bucket and the token bucket are
both nonempty, pop one packet and consume one token.  Structural
recursion on the data bucket. -/
def tb_try_transmit : List ℚ → ℤ → ℕ → List ℚ × ℤ × ℕ
  | [], tok, tx => ([], tok, tx)
  | p :: rest, tok, tx =>
    if 0 < tok then tb_try_transmit rest (tok - 1) (tx + 1)
    else (p :: rest, tok, tx)

/-- try_transmit_packet acting on the state. -/
def tb_try_transmit_packet (s : TBState) : TBState :=
  let r := tb_try_transmit s.data_bucket s.token_bucket s.packets_transmitted
  { s with data_bucket := r.1, token_bucket := r.2.1,
           packets_transmitted := r.2.2 }

/-- packet_arrival_event. -/
def tb_packet_arrival_event (s : TBState) : TBState :=
  let s := { s with packets_arrived := s.packets_arrived + 1 }
  let s :=
    if (s.data_bucket.length : ℤ) < s.data_bucket_size then
      tb_try_transmit_packet
        { s with data_bucket := s.data_bucket ++ [s.current_time] }
    else
      { s with packets_lost := s.packets_lost + 1 }
  let d := tb_generate_exponential s (1 / s.arrival_rate)
  let next_arrival_time := d.2.current_time + d.1
  if next_arrival_time < d.2.run_time then
    tb_schedule d.2 { time := next_arrival_time, etype := .packetArrival }
  else d.2

/-- token_generation_event. -/
def tb_token_generation_event (s : TBState) : TBState :=
  let s :=
    if s.token_bucket < s.token_bucket_size then
      { s with token_bucket := s.token_bucket + 1 }
    else s
  let s := tb_try_transmit_packet s
  let next_token_time := s.current_time + 1 / s.token_rate
  if next_token_time < s.run_time then
    tb_schedule s { time := next_token_time, etype := .tokenGeneration }
  else s

/-- update_statistics (same pre-advance integration). -/
def tb_update_statistics (s : TBState) : TBState :=
  { s with
    total_queue_time := s.total_queue_time +
      (s.data_bucket.length : ℚ) * (s.current_time - s.last_stat_time)
    last_stat_time := s.current_time }

/-- Event dispatch. -/
def tb_dispatch (e : Event) (s : TBState) : TBState :=
  match e.etype with
  | .packetArrival => tb_packet_arrival_event s
  | .tokenGeneration => tb_token_generation_event s
  | .clockTick => s

/-- Seeding in run(): unchecked first arrival and first token event at
1/token_rate. -/
def tb_seed (s : TBState) : TBState :=
  let d := tb_generate_exponential s (1 / s.arrival_rate)
  let s := tb_schedule d.2 { time := d.1, etype := .packetArrival }
  tb_schedule s { time := 1 / s.token_rate, etype := .tokenGeneration }

/-- run() event loop: the break test is strict (event.time > run_time)
and happens before the statistics update and the clock advance. -/
def tb_run : ℕ → TBState → TBState × List ℚ
  | 0, s => (s, [])
  | fuel + 1, s =>
    match s.event_queue with
    | [] => (s, [])
    | e :: rest =>
      if s.run_time < e.time then (s, [])
      else
        let s1 := tb_update_statistics { s with event_queue := rest }
        let s2 := { s1 with current_time := e.time }
        let r := tb_run fuel (tb_dispatch e s2)
        (r.1, e.time :: r.2)

/-- The epilogue of run(): current_time = run_time, final statistics
update. -/
def tb_finish (s : TBState) : TBState :=
  tb_update_statistics { s with current_time := s.run_time }

/-- Result record of part 3a get_results. -/
structure TBResults where
  token_bucket_size : ℤ
  data_bucket_size : ℤ
  packets_arrived : ℕ
  packets_transmitted : ℕ
  packets_lost : ℕ
  loss_rate : ℚ
  mean_output_rate : ℚ
  avg_queue_length : ℚ
deriving DecidableEq

/-- part 3a get_results. -/
def tb_get_results (s : TBState) : TBResults :=
  { token_bucket_size := s.token_bucket_size
    data_bucket_size := s.data_bucket_size
    packets_arrived := s.packets_arrived
    packets_transmitted := s.packets_transmitted
    packets_lost := s.packets_lost
    loss_rate := if 0 < s.packets_arrived then
        (s.packets_lost : ℚ) / (s.packets_arrived : ℚ) else 0
    mean_output_rate := (s.packets_transmitted : ℚ) / s.run_time
    avg_queue_length := s.total_queue_time / s.run_time }

/-! ## Part 3b: token bucket, bit counting (lab5_part3b_token_bucket_bits.py) -/

/-- State of BitCountingTokenBucket: real-valued token level in bits,
lazily advanced. -/
structure BTBState where
  token_bucket_size : ℚ
  data_bucket_size : ℤ
  token_rate : ℚ
  arrival_rate : ℚ
  packet_sizes : List ℚ
  run_time : ℚ
  token_bucket : ℚ
  data_bucket : List BPacket
  last_token_update : ℚ
  packets_arrived : ℕ
  packets_lost : ℕ
  packets_transmitted : ℕ
  bits_transmitted : ℚ
  current_time : ℚ
  last_stat_time : ℚ
  total_queue_time : ℚ
  event_queue : List Event
  rng : ℕ → ℚ
  rng_idx : ℕ
  size_draws : ℕ → ℚ
  size_idx : ℕ

/-- BitCountingTokenBucket.__init__ (no validation, no division). -/
def btb_state0 (token_bucket_size : ℚ) (data_bucket_size : ℤ)
    (token_rate arrival_rate : ℚ) (packet_sizes : List ℚ) (run_time : ℚ)
    (rng size_draws : ℕ → ℚ) : BTBState :=
  { token_bucket_size := token_bucket_size
    data_bucket_size := data_bucket_size
    token_rate := token_rate
    arrival_rate := arrival_rate
    packet_sizes := packet_sizes
    run_time := run_time
    token_bucket := 0
    data_bucket := []
    last_token_update := 0
    packets_arrived := 0
    packets_lost := 0
    packets_transmitted := 0
    bits_transmitted := 0
    current_time := 0
    last_stat_time := 0
    total_queue_time := 0
    event_queue := []
    rng := rng
    rng_idx := 0
    size_draws := size_draws
    size_idx := 0 }

/-- schedule_event. -/
def btb_schedule (s : BTBState) (e : Event) : BTBState :=
  { s with event_queue := insertByTime Event.time e s.event_queue }

/-- generate_exponential. -/
def btb_generate_exponential (s : BTBState) (mean : ℚ) : ℚ × BTBState :=
  (mean * s.rng s.rng_idx, { s with rng_idx := s.rng_idx + 1 })

/-- generate_packet_size. -/
def btb_generate_packet_size (s : BTBState) : ℚ × BTBState :=
  (s.size_draws s.size_idx, { s with size_idx := s.size_idx + 1 })

/-- update_tokens: lazy continuous accrual, clamped at the capacity. -/
def btb_update_tokens (s : BTBState) (current_time : ℚ) : BTBState :=
  let time_diff := current_time - s.last_token_update
  let tokens_to_add := time_diff * s.token_rate
  { s with
    token_bucket := min (s.token_bucket + tokens_to_add) s.token_bucket_size
    last_token_update := current_time }

/-- try_transmit_packets: while the head packet fits into the token
level, pop it, pay its size in tokens, count packet and bits. -/
def btb_try_transmit : List BPacket → ℚ → ℕ → ℚ →
    List BPacket × ℚ × ℕ × ℚ
  | [], tok, tx, bits => ([], tok, tx, bits)
  | p :: rest, tok, tx, bits =>
    if p.size ≤ tok then
      btb_try_transmit rest (tok - p.size) (tx + 1) (bits + p.size)
    else (p :: rest, tok, tx, bits)

/-- try_transmit_packets acting on the state. -/
def btb_try_transmit_packets (s : BTBState) : BTBState :=
  let r := btb_try_transmit s.data_bucket s.token_bucket
    s.packets_transmitted s.bits_transmitted
  { s with data_bucket := r.1, token_bucket := r.2.1,
           packets_transmitted := r.2.2.1, bits_transmitted := r.2.2.2 }

/-- packet_arrival_event: draw a size, advance the tokens lazily, admit
or drop, transmit greedily, schedule the next arrival inside the
horizon. -/
def btb_packet_arrival_event (s : BTBState) : BTBState :=
  let s := { s with packets_arrived := s.packets_arrived + 1 }
  let ps := btb_generate_packet_size s
  let s := btb_update_tokens ps.2 ps.2.current_time
  let s :=
    if (s.data_bucket.length : ℤ) < s.data_bucket_size then
      btb_try_transmit_packets
        { s with data_bucket :=
            s.data_bucket ++ [{ arrival_time := s.current_time, size := ps.1 }] }
    else
      { s with packets_lost := s.packets_lost + 1 }
  let d := btb_generate_exponential s (1 / s.arrival_rate)
  let next_arrival_time := d.2.current_time + d.1
  if next_arrival_time < d.2.run_time then
    btb_schedule d.2 { time := next_arrival_time, etype := .packetArrival }
  else d.2

/-- update_statistics. -/
def btb_update_statistics (s : BTBState) : BTBState :=
  { s with
    total_queue_time := s.total_queue_time +
      (s.data_bucket.length : ℚ) * (s.current_time - s.last_stat_time)
    last_stat_time := s.current_time }

/-- Seeding in run(): unchecked first arrival; the token bucket starts
full (token_bucket = token_bucket_size, last_token_update = 0). -/
def btb_seed (s : BTBState) : BTBState :=
  let d := btb_generate_exponential s (1 / s.arrival_rate)
  let s := btb_schedule d.2 { time := d.1, etype := .packetArrival }
  { s with token_bucket := s.token_bucket_size, last_token_update := 0 }

/-- run() event loop: strict break test before the statistics update;
only arrival events are dispatched. -/
def btb_run : ℕ → BTBState → BTBState × List ℚ
  | 0, s => (s, [])
  | fuel + 1, s =>
    match s.event_queue with
    | [] => (s, [])
    | e :: rest =>
      if s.run_time < e.time then (s, [])
      else
        let s1 := btb_update_statistics { s with event_queue := rest }
        let s2 := { s1 with current_time := e.time }
        let s3 := match e.etype with
          | .packetArrival => btb_packet_arrival_event s2
          | _ => s2
        let r := btb_run fuel s3
        (r.1, e.time :: r.2)

/-- The epilogue of run(): clock to the horizon, final token accrual,
final statistics update. -/
def btb_finish (s : BTBState) : BTBState :=
  let s := { s with current_time := s.run_time }
  let s := btb_update_tokens s s.current_time
  btb_update_statistics s

/-- Result record of part 3b get_results. -/
structure BTBResults where
  token_bucket_size : ℚ
  data_bucket_size : ℤ
  token_rate : ℚ
  packets_arrived : ℕ
  packets_transmitted : ℕ
  packets_lost : ℕ
  bits_transmitted : ℚ
  loss_rate : ℚ
  mean_output_rate_bps : ℚ
  mean_output_rate_pps : ℚ
  avg_queue_length : ℚ
deriving DecidableEq

/-- part 3b get_results. -/
def btb_get_results (s : BTBState) : BTBResults :=
  { token_bucket_size := s.token_bucket_size
    data_bucket_size := s.data_bucket_size
    token_rate := s.token_rate
    packets_arrived := s.packets_arrived
    packets_transmitted := s.packets_transmitted
    packets_lost := s.packets_lost
    bits_transmitted := s.bits_transmitted
    loss_rate := if 0 < s.packets_arrived then
        (s.packets_lost : ℚ) / (s.packets_arrived : ℚ) else 0
    mean_output_rate_bps := s.bits_transmitted / s.run_time
    mean_output_rate_pps := (s.packets_transmitted : ℚ) / s.run_time
    avg_queue_length := s.total_queue_time / s.run_time }

/-! ## Single-server packet switch (leaky_bucket_original.py) -/

/-- Packet of the switch (dataclass Packet). -/
structure PSPacket where
  arrival_time : ℚ
  size : ℚ
  start_service_time : Option ℚ
  departure_time : Option ℚ
deriving DecidableEq

/-- Event kinds of the switch. -/
inductive PSEType where
  | packetArrival
  | packetDeparture
deriving DecidableEq

/-- Event of the switch (dataclass Event); every event the program
builds carries a packet. -/
structure PSEvent where
  time : ℚ
  etype : PSEType
  packet : PSPacket
deriving DecidableEq

/-- State of PacketSwitchSimulator.  gaps/gi determinize the
inter-arrival draws and sizes/si the packet-size draws. -/
structure PSState where
  arrival_rate : ℚ
  mean_packet_size : ℚ
  link_rate : ℚ
  run_length : ℕ
  current_time : ℚ
  event_queue : List PSEvent
  packet_queue : List PSPacket
  server_busy : Bool
  packet_in_service : Option PSPacket
  packets_arrived : ℕ
  packets_departed : ℕ
  total_delay : ℚ
  total_queue_delay : ℚ
  total_service_time : ℚ
  queue_length_history : List ℕ
  time_history : List ℚ
  gaps : ℕ → ℚ
  gi : ℕ
  sizes : ℕ → ℚ
  si : ℕ

/-- PacketSwitchSimulator.__init__ (no validation, no division). -/
def ps_state0 (arrival_rate mean_packet_size link_rate : ℚ)
    (run_length : ℕ) (gaps sizes : ℕ → ℚ) : PSState :=
  { arrival_rate := arrival_rate
    mean_packet_size := mean_packet_size
    link_rate := link_rate
    run_length := run_length
    current_time := 0
    event_queue := []
    packet_queue := []
    server_busy := false
    packet_in_service := none
    packets_arrived := 0
    packets_departed := 0
    total_delay := 0
    total_queue_delay := 0
    total_service_time := 0
    queue_length_history := []
    time_history := []
    gaps := gaps
    gi := 0
    sizes := sizes
    si := 0 }

/-- start_service: pop the queue head, mark the server busy, stamp the
service start, and schedule the departure at now + size/link_rate. -/
def ps_start_service (s : PSState) : PSState :=
  match s.packet_queue with
  | [] => s
  | p :: rest =>
    let p := { p with start_service_time := some s.current_time }
    let service_time := p.size / s.link_rate
    let s := { s with packet_queue := rest, server_busy := true,
                      packet_in_service := some p,
                      event_queue := insertByTime PSEvent.time
                        { time := s.current_time + service_time,
                          etype := .packetDeparture, packet := p }
                        s.event_queue }
    { s with queue_length_history := s.queue_length_history ++ [s.packet_queue.length]
             time_history := s.time_history ++ [s.current_time] }

/-- packet_arrival_event: enqueue, start service when idle, and (only
while fewer than run_length departures) draw and schedule the next
arrival together with its packet. -/
def ps_packet_arrival_event (s : PSState) (pkt : PSPacket) : PSState :=
  let s := { s with packets_arrived := s.packets_arrived + 1,
                    packet_queue := s.packet_queue ++ [pkt] }
  let s := { s with queue_length_history := s.queue_length_history ++ [s.packet_queue.length]
                    time_history := s.time_history ++ [s.current_time] }
  let s := if s.server_busy then s else ps_start_service s
  if s.packets_departed < s.run_length then
    let gap := (1 / s.arrival_rate) * s.gaps s.gi
    let next_arrival_time := s.current_time + gap
    let size := s.mean_packet_size * s.sizes s.si
    { s with gi := s.gi + 1, si := s.si + 1,
             event_queue := insertByTime PSEvent.time
               { time := next_arrival_time, etype := .packetArrival,
                 packet := { arrival_time := next_arrival_time, size := size,
                             start_service_time := none, departure_time := none } }
               s.event_queue }
  else s

/-- packet_departure_event: account the delays, free the server, start
the next service when the queue is nonempty. -/
def ps_packet_departure_event (s : PSState) (pkt : PSPacket) : PSState :=
  let s := { s with packets_departed := s.packets_departed + 1 }
  let pkt := { pkt with departure_time := some s.current_time }
  let st := pkt.start_service_time.getD 0
  let s := { s with
    total_delay := s.total_delay + (s.current_time - pkt.arrival_time)
    total_queue_delay := s.total_queue_delay + (st - pkt.arrival_time)
    total_service_time := s.total_service_time + (s.current_time - st)
    server_busy := false
    packet_in_service := none }
  if s.packet_queue.length ≠ 0 then ps_start_service s else s

/-- Dispatch of the switch run loop. -/
def ps_dispatch (e : PSEvent) (s : PSState) : PSState :=
  match e.etype with
  | .packetArrival => ps_packet_arrival_event s e.packet
  | .packetDeparture => ps_packet_departure_event s e.packet

/-- Seeding in run(): the first arrival with its drawn time and size. -/
def ps_seed (s : PSState) : PSState :=
  let t := (1 / s.arrival_rate) * s.gaps s.gi
  let size := s.mean_packet_size * s.sizes s.si
  { s with gi := s.gi + 1, si := s.si + 1,
           event_queue := insertByTime PSEvent.time
             { time := t, etype := .packetArrival,
               packet := { arrival_time := t, size := size,
                           start_service_time := none, departure_time := none } }
             s.event_queue }

/-- run() event loop of the switch: while packets_departed < run_length
and the event queue is nonempty, pop, advance the clock, dispatch.
Returns the final state, whether the loop exited by its own condition
(true) or ran out of fuel (false), and the dispatched timestamps. -/
def ps_run : ℕ → PSState → PSState × Bool × List ℚ
  | 0, s => (s, false, [])
  | fuel + 1, s =>
    if s.packets_departed < s.run_length then
      match s.event_queue with
      | [] => (s, true, [])
      | e :: rest =>
        let r := ps_run fuel
          (ps_dispatch e { s with event_queue := rest, current_time := e.time })
        (r.1, r.2.1, e.time :: r.2.2)
    else (s, true, [])

/-- Result record of the switch get_results (departed counts are
positive in every completed run, so the divisions are well formed). -/
structure PSResults where
  packets_arrived : ℕ
  packets_departed : ℕ
  avg_delay : ℚ
  avg_queue_delay : ℚ
  avg_service_time : ℚ
  simulation_time : ℚ
deriving DecidableEq

/-- get_results of the switch. -/
def ps_get_results (s : PSState) : PSResults :=
  { packets_arrived := s.packets_arrived
    packets_departed := s.packets_departed
    avg_delay := s.total_delay / (s.packets_departed : ℚ)
    avg_queue_delay := s.total_queue_delay / (s.packets_departed : ℚ)
    avg_service_time := s.total_service_time / (s.packets_departed : ℚ)
    simulation_time := s.current_time }

/-- Time of the k-th arrival of the switch (0-indexed): the cumulative
sum of the scaled inter-arrival draws. -/
def ps_arrival_time (lam : ℚ) (gaps : ℕ → ℚ) : ℕ → ℚ
  | 0 => (1 / lam) * gaps 0
  | k + 1 => ps_arrival_time lam gaps k + (1 / lam) * gaps (k + 1)

/-- Cumulative service time of the first k+1 packets of the switch. -/
def ps_svc_sum (msz c : ℚ) (sizes : ℕ → ℚ) : ℕ → ℚ
  | 0 => msz * sizes 0 / c
  | k + 1 => ps_svc_sum msz c sizes k + msz * sizes (k + 1) / c

/-- A pointwise-given draw stream used in concrete runs below. -/
def drawsHalfThenOne : ℕ → ℚ := fun n => if n = 0 then 1/2 else 1

/-- Packet conservation counter identity of the part 1 model. -/
def lb_conserved (s : LBState) : Prop :=
  s.packets_arrived = s.packets_transmitted + s.packets_dropped +
    s.packet_queue.length

/-- Packet conservation counter identity of the part 3a model. -/
def tb_conserved (s : TBState) : Prop :=
  s.packets_arrived = s.packets_transmitted + s.packets_lost +
    s.data_bucket.length

/-- Part 3a: a nonnegative token count that never coexists with queued
packets. -/
def tb_excl (s : TBState) : Prop :=
  0 ≤ s.token_bucket ∧ (s.token_bucket = 0 ∨ s.data_bucket = [])

/-- Part 3a: token count within [0, cap], cap being the configured
token bucket size. -/
def tb_inrange (cap : ℤ) (s : TBState) : Prop :=
  0 ≤ s.token_bucket ∧ s.token_bucket ≤ cap ∧ s.token_bucket_size = cap

/-- Invariant of the part 3b run loop: the configured capacity, the
chronology of the event queue and the token accrual clock, the token
range, and the sign facts the handlers rely on. -/
structure BTBInv (cap : ℚ) (s : BTBState) : Prop where
  cap_eq : s.token_bucket_size = cap
  cap_nonneg : 0 ≤ cap
  sorted : s.event_queue.Pairwise (fun a b => a.time ≤ b.time)
  lower : ∀ e ∈ s.event_queue, s.current_time ≤ e.time
  last_le : s.last_token_update ≤ s.current_time
  tok_lo : 0 ≤ s.token_bucket
  tok_hi : s.token_bucket ≤ cap
  rate_nonneg : 0 ≤ s.token_rate
  lam_pos : 0 < s.arrival_rate
  rng_nonneg : ∀ i, 0 ≤ s.rng i
  size_nonneg : ∀ i, 0 ≤ s.size_draws i
  queue_sizes : ∀ p ∈ s.data_bucket, 0 ≤ p.size

/-- Chronology invariant of the part 1 run loop. -/
structure LBOrd (s : LBState) : Prop where
  sorted : s.event_queue.Pairwise (fun a b => a.time ≤ b.time)
  lower : ∀ e ∈ s.event_queue, s.current_time ≤ e.time
  tick_nonneg : 0 ≤ s.tick_period
  lam_pos : 0 < s.arrival_rate
  rng_nonneg : ∀ i, 0 ≤ s.rng i

/-- Chronology invariant of the part 2 run loop. -/
structure BBOrd (s : BBState) : Prop where
  sorted : s.event_queue.Pairwise (fun a b => a.time ≤ b.time)
  lower : ∀ e ∈ s.event_queue, s.current_time ≤ e.time
  clock_nonneg : 0 ≤ s.clock_period
  lam_pos : 0 < s.arrival_rate
  rng_nonneg : ∀ i, 0 ≤ s.rng i

/-- Chronology invariant of the part 3a run loop. -/
structure TBOrd (s : TBState) : Prop where
  sorted : s.event_queue.Pairwise (fun a b => a.time ≤ b.time)
  lower : ∀ e ∈ s.event_queue, s.current_time ≤ e.time
  rate_nonneg : 0 ≤ s.token_rate
  lam_pos : 0 < s.arrival_rate
  rng_nonneg : ∀ i, 0 ≤ s.rng i

/-- Chronology invariant of the packet-switch run loop. -/
structure PSOrd (s : PSState) : Prop where
  sorted : s.event_queue.Pairwise (fun a b => a.time ≤ b.time)
  lower : ∀ e ∈ s.event_queue, s.current_time ≤ e.time
  lam_pos : 0 < s.arrival_rate
  link_pos : 0 < s.link_rate
  msz_nonneg : 0 ≤ s.mean_packet_size
  gaps_nonneg : ∀ i, 0 ≤ s.gaps i
  sizes_nonneg : ∀ i, 0 ≤ s.sizes i
  queue_sizes : ∀ p ∈ s.packet_queue, 0 ≤ p.size
  ev_sizes : ∀ e ∈ s.event_queue, 0 ≤ e.packet.size

/-- Whether a switch event is an arrival. -/
def ps_isArr (e : PSEvent) : Bool :=
  match e.etype with
  | .packetArrival => true
  | .packetDeparture => false

/-- Whether a switch event is a departure. -/
def ps_isDep (e : PSEvent) : Bool :=
  match e.etype with
  | .packetArrival => false
  | .packetDeparture => true

/-- 1 when the switch server is busy, 0 when idle. -/
def psBusyBit (s : PSState) : ℕ := if s.server_busy then 1 else 0

/-- The k-th packet the switch generates, as a function of the
parameters and draw streams. -/
def ps_pkt (lam msz : ℚ) (gaps sizes : ℕ → ℚ) (k : ℕ) : PSPacket :=
  { arrival_time := ps_arrival_time lam gaps k
    size := msz * sizes k
    start_service_time := none
    departure_time := none }

/-- Full run-loop invariant of the packet switch, used for the
termination argument: chronology, event-kind counts, the pinned pending
arrival, the stream indices, the FIFO queue contents, and the Lindley
bound on the pending departure's timestamp. -/
structure PSInv (s : PSState) : Prop where
  ord : PSOrd s
  dep_le : s.packets_departed ≤ s.run_length
  sub_le : s.packets_departed + psBusyBit s ≤ s.packets_arrived
  dep_count : (s.event_queue.filter ps_isDep).length = psBusyBit s
  arr_count : (s.event_queue.filter ps_isArr).length ≤ 1
  arr_pin : ∀ e ∈ s.event_queue, ps_isArr e = true →
    e.time = ps_arrival_time s.arrival_rate s.gaps s.packets_arrived ∧
    e.packet = ps_pkt s.arrival_rate s.mean_packet_size s.gaps s.sizes
      s.packets_arrived
  arr_exists : s.packets_departed < s.run_length →
    ∃ e ∈ s.event_queue, ps_isArr e = true
  idx_gi : s.packets_departed < s.run_length → s.gi = s.packets_arrived + 1
  idx_si : s.packets_departed < s.run_length → s.si = s.packets_arrived + 1
  idle_empty : s.server_busy = false → s.packet_queue = []
  queue_shape : s.packet_queue =
    (List.range' (s.packets_departed + psBusyBit s)
      (s.packets_arrived - (s.packets_departed + psBusyBit s))).map
      (ps_pkt s.arrival_rate s.mean_packet_size s.gaps s.sizes)
  dep_pin : ∀ e ∈ s.event_queue, ps_isDep e = true →
    e.time ≤ ps_arrival_time s.arrival_rate s.gaps s.packets_departed +
      ps_svc_sum s.mean_packet_size s.link_rate s.sizes s.packets_departed

/-! ## Theorems -/

theorem mem_insertByTime {α : Type} (t : α → ℚ) (e : α) (l : List α) (a : α) :
    a ∈ insertByTime t e l ↔ a = e ∨ a ∈ l := by
  induction l with
  | nil => simp [insertByTime]
  | cons x xs ih =>
    simp only [insertByTime]
    split
    · rw [List.mem_cons, ih, List.mem_cons]
      tauto
    · exact List.mem_cons

theorem pairwise_insertByTime {α : Type} (t : α → ℚ) (e : α) (l : List α)
    (h : l.Pairwise (fun a b => t a ≤ t b)) :
    (insertByTime t e l).Pairwise (fun a b => t a ≤ t b) := by
  induction l with
  | nil => simp [insertByTime]
  | cons x xs ih =>
    rw [List.pairwise_cons] at h
    simp only [insertByTime]
    split
    · rename_i hxe
      rw [List.pairwise_cons]
      refine ⟨?_, ih h.2⟩
      intro a ha
      rw [mem_insertByTime] at ha
      rcases ha with rfl | ha
      · exact hxe
      · exact h.1 a ha
    · rename_i hxe
      push_neg at hxe
      rw [List.pairwise_cons]
      refine ⟨?_, List.pairwise_cons.mpr h⟩
      intro a ha
      rcases List.mem_cons.mp ha with rfl | ha
      · exact le_of_lt hxe
      · exact le_trans (le_of_lt hxe) (h.1 a ha)

/-! ### C2: conservation of packets -/

theorem lb_conserved_arrival (s : LBState) (h : lb_conserved s) :
    lb_conserved (lb_packet_arrival_event s) := by
  unfold lb_conserved at *
  simp only [lb_packet_arrival_event, lb_generate_exponential, lb_schedule]
  split_ifs <;> simp <;> omega

theorem lb_conserved_tick (s : LBState) (h : lb_conserved s) :
    lb_conserved (lb_clock_tick_event s) := by
  unfold lb_conserved at *
  simp only [lb_clock_tick_event, lb_schedule]
  rcases hq : s.packet_queue with _ | ⟨p, rest⟩
  · simp only [hq]
    split_ifs <;> simpa [hq] using h
  · rw [hq] at h
    simp only [hq]
    split_ifs <;> (simp only [List.length_cons] at h; simp; omega)

theorem lb_conserved_dispatch (e : Event) (s : LBState) (h : lb_conserved s) :
    lb_conserved (lb_dispatch e s) := by
  rcases e with ⟨t, ety⟩
  rcases ety
  · exact lb_conserved_arrival _ h
  · exact lb_conserved_tick _ h
  · exact h

theorem lb_conserved_run (fuel : ℕ) (s : LBState) (h : lb_conserved s) :
    lb_conserved (lb_run fuel s).1 := by
  induction fuel generalizing s with
  | zero => exact h
  | succ n ih =>
    rw [lb_run]
    rcases hq : s.event_queue with _ | ⟨e, rest⟩
    · exact h
    · dsimp only
      split
      · exact h
      · exact ih _ (lb_conserved_dispatch e _ h)

theorem tb_try_transmit_count (l : List ℚ) (tok : ℤ) (tx : ℕ) :
    (tb_try_transmit l tok tx).2.2 + (tb_try_transmit l tok tx).1.length =
      tx + l.length := by
  induction l generalizing tok tx with
  | nil => simp [tb_try_transmit]
  | cons p rest ih =>
    simp only [tb_try_transmit]
    split_ifs
    · rw [ih]
      simp only [List.length_cons]
      omega
    · rfl

theorem tb_conserved_arrival (s : TBState) (h : tb_conserved s) :
    tb_conserved (tb_packet_arrival_event s) := by
  unfold tb_conserved at *
  simp only [tb_packet_arrival_event, tb_try_transmit_packet,
    tb_generate_exponential, tb_schedule]
  split_ifs <;>
    (have key := tb_try_transmit_count
        (s.data_bucket ++ [s.current_time]) s.token_bucket
        s.packets_transmitted
     dsimp only
     simp only [List.length_append, List.length_cons, List.length_nil] at key
     omega)

theorem tb_conserved_tokengen (s : TBState) (h : tb_conserved s) :
    tb_conserved (tb_token_generation_event s) := by
  unfold tb_conserved at *
  simp only [tb_token_generation_event, tb_try_transmit_packet, tb_schedule]
  split_ifs <;>
    first
    | (have key := tb_try_transmit_count s.data_bucket (s.token_bucket + 1)
          s.packets_transmitted
       dsimp only
       omega)
    | (have key := tb_try_transmit_count s.data_bucket s.token_bucket
          s.packets_transmitted
       dsimp only
       omega)

theorem tb_conserved_dispatch (e : Event) (s : TBState) (h : tb_conserved s) :
    tb_conserved (tb_dispatch e s) := by
  rcases e with ⟨t, ety⟩
  rcases ety
  · exact tb_conserved_arrival _ h
  · exact h
  · exact tb_conserved_tokengen _ h

theorem tb_conserved_run (fuel : ℕ) (s : TBState) (h : tb_conserved s) :
    tb_conserved (tb_run fuel s).1 := by
  induction fuel generalizing s with
  | zero => exact h
  | succ n ih =>
    rw [tb_run]
    rcases hq : s.event_queue with _ | ⟨e, rest⟩
    · exact h
    · dsimp only
      split
      · exact h
      · exact ih _ (tb_conserved_dispatch e _ h)

/-- C1.  The claim says the statistics update performed immediately
before dispatching an event with timestamp t integrates up to t and
leaves last_update_time = t, so that after every dispatch
last_update_time equals the time of the most recently processed event.
The code calls update_statistics before assigning current_time =
event.time, so it integrates up to the previous event's time instead: in
the concrete run below (B = 1, R = 1, lambda = 1, run_time = 1, first
unit draw 1/2), the loop dispatches the tick at time 0 and the arrival
at time 1/2, yet after those two dispatches last_event_time is still 0,
not 1/2, and the occupancy accumulator was only integrated up to 0. -/
theorem c1_stats_update_lags_clock :
    (lb_run 2 (lb_seed (lb_state0 1 1 1 1 drawsHalfThenOne))).2 = [0, 1/2] ∧
    (lb_run 2 (lb_seed (lb_state0 1 1 1 1 drawsHalfThenOne))).1.current_time
      = 1/2 ∧
    (lb_run 2 (lb_seed (lb_state0 1 1 1 1 drawsHalfThenOne))).1.last_event_time
      = 0 := by
  norm_num [lb_run, lb_seed, lb_state0, lb_dispatch, lb_schedule,
    lb_generate_exponential, lb_update_statistics, lb_packet_arrival_event,
    lb_clock_tick_event, insertByTime, drawsHalfThenOne]

/-- C2 as stated is false: in this completed part 1 run (the event queue
is exhausted, so the loop has terminated) one packet arrived, none was
transmitted and none was dropped, because the arrived packet is still
sitting in the bucket when the run ends. -/
theorem c2_arrived_ne_transmitted_plus_dropped :
    (lb_run 3 (lb_seed (lb_state0 1 1 1 1 drawsHalfThenOne))).1.event_queue
      = [] ∧
    (lb_run 3 (lb_seed (lb_state0 1 1 1 1 drawsHalfThenOne))).1.packets_arrived
      = 1 ∧
    (lb_run 3 (lb_seed (lb_state0 1 1 1 1 drawsHalfThenOne))).1.packets_transmitted
      = 0 ∧
    (lb_run 3 (lb_seed (lb_state0 1 1 1 1 drawsHalfThenOne))).1.packets_dropped
      = 0 := by
  norm_num [lb_run, lb_seed, lb_state0, lb_dispatch, lb_schedule,
    lb_generate_exponential, lb_update_statistics, lb_packet_arrival_event,
    lb_clock_tick_event, insertByTime, drawsHalfThenOne]

/-- C2 amended: in the packet-counting leaky bucket and the
packet-counting token bucket, at every point of every run
arrived = transmitted + dropped + (packets still queued in the bucket);
the stated identity arrived = transmitted + dropped holds only when the
bucket is empty. -/
theorem c2_amended_conservation (fuel : ℕ) (B : ℤ) (R lam T : ℚ)
    (rng : ℕ → ℚ) (Bt Bd : ℤ) (tr lam2 T2 : ℚ) (rng2 : ℕ → ℚ) :
    ((lb_run fuel (lb_seed (lb_state0 B R lam T rng))).1.packets_arrived =
      (lb_run fuel (lb_seed (lb_state0 B R lam T rng))).1.packets_transmitted +
      (lb_run fuel (lb_seed (lb_state0 B R lam T rng))).1.packets_dropped +
      (lb_run fuel (lb_seed (lb_state0 B R lam T rng))).1.packet_queue.length) ∧
    ((tb_finish (tb_run fuel (tb_seed (tb_state0 Bt Bd tr lam2 T2 rng2))).1).packets_arrived =
      (tb_finish (tb_run fuel (tb_seed (tb_state0 Bt Bd tr lam2 T2 rng2))).1).packets_transmitted +
      (tb_finish (tb_run fuel (tb_seed (tb_state0 Bt Bd tr lam2 T2 rng2))).1).packets_lost +
      (tb_finish (tb_run fuel (tb_seed (tb_state0 Bt Bd tr lam2 T2 rng2))).1).data_bucket.length) := by
  constructor
  · exact lb_conserved_run fuel _ rfl
  · exact tb_conserved_run fuel (tb_seed (tb_state0 Bt Bd tr lam2 T2 rng2)) rfl

/-! ### C4: part 1 handler behaviour -/

/-- C4: one ARRIVAL invocation increments the arrival counter, enqueues
exactly when the queue is strictly below the bucket size and otherwise
increments the drop counter, then schedules the next arrival exactly
when the sampled time is before the horizon; one CLOCK_TICK invocation
dequeues one packet and counts one transmission exactly when the queue
is nonempty, and reschedules the next tick at current_time +
tick_period exactly when that is before the horizon, where tick_period
is set to 1/output_rate at construction. -/
theorem c4_lb_handler_behavior (s : LBState) (B : ℤ) (R lam T : ℚ)
    (rng : ℕ → ℚ) :
    (lb_packet_arrival_event s).packets_arrived = s.packets_arrived + 1 ∧
    (lb_packet_arrival_event s).packet_queue =
      (if (s.packet_queue.length : ℤ) < s.bucket_size
        then s.packet_queue ++ [s.current_time] else s.packet_queue) ∧
    (lb_packet_arrival_event s).packets_dropped =
      (if (s.packet_queue.length : ℤ) < s.bucket_size
        then s.packets_dropped else s.packets_dropped + 1) ∧
    (lb_packet_arrival_event s).event_queue =
      (if s.current_time + 1 / s.arrival_rate * s.rng s.rng_idx < s.run_time
        then insertByTime Event.time
          { time := s.current_time + 1 / s.arrival_rate * s.rng s.rng_idx,
            etype := EType.packetArrival } s.event_queue
        else s.event_queue) ∧
    (lb_clock_tick_event s).packets_transmitted =
      (if s.packet_queue = [] then s.packets_transmitted
        else s.packets_transmitted + 1) ∧
    (lb_clock_tick_event s).packet_queue =
      (if s.packet_queue = [] then s.packet_queue else s.packet_queue.tail) ∧
    (lb_clock_tick_event s).event_queue =
      (if s.current_time + s.tick_period < s.run_time
        then insertByTime Event.time
          { time := s.current_time + s.tick_period, etype := EType.clockTick }
          s.event_queue
        else s.event_queue) ∧
    (lb_state0 B R lam T rng).tick_period = 1 / R := by
  refine ⟨?_, ?_, ?_, ?_, ?_, ?_, ?_, rfl⟩ <;>
    rcases hq : s.packet_queue with _ | ⟨p, rest⟩ <;>
    simp only [lb_packet_arrival_event, lb_clock_tick_event,
      lb_generate_exponential, lb_schedule, hq] <;>
    split_ifs <;>
    first
      | rfl
      | (exact absurd ‹_› ‹_›)
      | simp_all

/-! ### C3: horizon checks -/

theorem lb_dispatch_run_time (e : Event) (s : LBState) :
    (lb_dispatch e s).run_time = s.run_time := by
  rcases e with ⟨t, ety⟩
  rcases ety <;>
    simp only [lb_dispatch, lb_packet_arrival_event, lb_clock_tick_event,
      lb_generate_exponential, lb_schedule] <;>
  first
    | rfl
    | (split_ifs <;> rfl)
    | (rcases hq : s.packet_queue with _ | ⟨p, rest⟩ <;> simp only [hq] <;>
        split_ifs <;> rfl)

theorem tb_dispatch_run_time (e : Event) (s : TBState) :
    (tb_dispatch e s).run_time = s.run_time := by
  rcases e with ⟨t, ety⟩
  rcases ety <;>
    simp only [tb_dispatch, tb_packet_arrival_event, tb_token_generation_event,
      tb_try_transmit_packet, tb_generate_exponential, tb_schedule] <;>
    split_ifs <;> rfl

/-- C3 as stated is false on two counts.  First, the seed events are
scheduled without any horizon check: with run_time 1, arrival rate 1 and
a first unit draw of 2, part 1's run() inserts the first arrival at time
2 ≥ 1 into the event queue.  Second, the token-bucket run loop's final
check is strict (event.time > run_time), so an already-queued event
exactly at the horizon is dispatched rather than discarded: with
token_rate 1 and run_time 1 the first token-generation event at time 1
is dispatched (it appears in the dispatch trace and adds its token). -/
theorem c3_seed_events_unchecked_and_horizon_dispatch :
    ({ time := 2, etype := EType.packetArrival } : Event) ∈
      (lb_seed (lb_state0 1 1 1 1 (fun _ => 2))).event_queue ∧
    (lb_state0 1 1 1 1 (fun _ => 2)).run_time ≤ 2 ∧
    (tb_run 1 (tb_seed (tb_state0 1 1 1 1 1 (fun _ => 2)))).2 = [1] ∧
    (tb_run 1 (tb_seed (tb_state0 1 1 1 1 1 (fun _ => 2)))).1.token_bucket
      = 1 ∧
    (tb_state0 1 1 1 1 1 (fun _ => 2)).run_time ≤ 1 := by
  refine ⟨?_, by norm_num [lb_state0], ?_, ?_, by norm_num [tb_state0]⟩ <;>
    norm_num [lb_seed, lb_state0, lb_schedule, lb_generate_exponential,
      tb_run, tb_seed, tb_state0, tb_schedule, tb_generate_exponential,
      tb_dispatch, tb_token_generation_event, tb_try_transmit_packet,
      tb_try_transmit, tb_update_statistics, insertByTime]

/-- C3 amended: the horizon check at creation applies to the events the
handlers reschedule (they only ever insert events with time strictly
before the horizon), but not to the seed events, which run() inserts
unchecked; the run loop's final check before dispatch then terminates
the loop, the leaky-bucket loops discarding any popped event with
time ≥ horizon (every dispatched timestamp is < run_time) while the
token-bucket loop discards only events with time > horizon (every
dispatched timestamp is ≤ run_time, with equality possible). -/
theorem c3_amended_horizon_checks :
    (∀ (s : LBState) (e : Event),
      e ∈ (lb_packet_arrival_event s).event_queue →
        e ∈ s.event_queue ∨ e.time < s.run_time) ∧
    (∀ (s : LBState) (e : Event),
      e ∈ (lb_clock_tick_event s).event_queue →
        e ∈ s.event_queue ∨ e.time < s.run_time) ∧
    (∀ (s : TBState) (e : Event),
      e ∈ (tb_packet_arrival_event s).event_queue →
        e ∈ s.event_queue ∨ e.time < s.run_time) ∧
    (∀ (s : TBState) (e : Event),
      e ∈ (tb_token_generation_event s).event_queue →
        e ∈ s.event_queue ∨ e.time < s.run_time) ∧
    (∀ (fuel : ℕ) (s : LBState) (x : ℚ),
      x ∈ (lb_run fuel s).2 → x < s.run_time) ∧
    (∀ (fuel : ℕ) (s : TBState) (x : ℚ),
      x ∈ (tb_run fuel s).2 → x ≤ s.run_time) := by
  refine ⟨?_, ?_, ?_, ?_, ?_, ?_⟩
  · intro s e he
    simp only [lb_packet_arrival_event, lb_generate_exponential,
      lb_schedule] at he
    split_ifs at he with h1 h2
    · rw [mem_insertByTime] at he
      rcases he with rfl | he
      · exact Or.inr h2
      · exact Or.inl he
    · exact Or.inl he
    · rw [mem_insertByTime] at he
      rcases he with rfl | he
      · exact Or.inr ‹_›
      · exact Or.inl he
    · exact Or.inl he
  · intro s e he
    simp only [lb_clock_tick_event, lb_schedule] at he
    rcases hq : s.packet_queue with _ | ⟨p, rest⟩ <;> rw [hq] at he <;>
      split_ifs at he with h1 <;>
      first
        | exact Or.inl he
        | (rw [mem_insertByTime] at he
           rcases he with rfl | he
           · exact Or.inr h1
           · exact Or.inl he)
  · intro s e he
    simp only [tb_packet_arrival_event, tb_try_transmit_packet,
      tb_generate_exponential, tb_schedule] at he
    split_ifs at he with h1 h2
    · rw [mem_insertByTime] at he
      rcases he with rfl | he
      · exact Or.inr h2
      · exact Or.inl he
    · exact Or.inl he
    · rw [mem_insertByTime] at he
      rcases he with rfl | he
      · exact Or.inr ‹_›
      · exact Or.inl he
    · exact Or.inl he
  · intro s e he
    simp only [tb_token_generation_event, tb_try_transmit_packet,
      tb_schedule] at he
    split_ifs at he with h1 h2
    · rw [mem_insertByTime] at he
      rcases he with rfl | he
      · exact Or.inr h2
      · exact Or.inl he
    · exact Or.inl he
    · rw [mem_insertByTime] at he
      rcases he with rfl | he
      · exact Or.inr ‹_›
      · exact Or.inl he
    · exact Or.inl he
  · intro fuel
    induction fuel with
    | zero => intro s x hx; simp [lb_run] at hx
    | succ n ih =>
      intro s x hx
      rw [lb_run] at hx
      rcases hq : s.event_queue with _ | ⟨e, rest⟩
      · rw [hq] at hx; simp at hx
      · rw [hq] at hx
        dsimp only at hx
        split_ifs at hx with h1
        · simp at hx
        · rcases List.mem_cons.mp hx with rfl | hx
          · exact not_le.mp h1
          · have := ih _ _ hx
            rwa [lb_dispatch_run_time] at this
  · intro fuel
    induction fuel with
    | zero => intro s x hx; simp [tb_run] at hx
    | succ n ih =>
      intro s x hx
      rw [tb_run] at hx
      rcases hq : s.event_queue with _ | ⟨e, rest⟩
      · rw [hq] at hx; simp at hx
      · rw [hq] at hx
        dsimp only at hx
        split_ifs at hx with h1
        · simp at hx
        · rcases List.mem_cons.mp hx with rfl | hx
          · exact not_lt.mp h1
          · have := ih _ _ hx
            rwa [tb_dispatch_run_time] at this

/-- Witness for the amended C3 at a concrete input: a handler
invocation that does schedule an event inserts it strictly before the
horizon. -/
theorem c3_amended_horizon_checks_witness :
    ({ time := 1, etype := EType.packetArrival } : Event) ∈
      (lb_packet_arrival_event (lb_state0 1 1 1 2 (fun _ => 1))).event_queue ∧
    (({ time := 1, etype := EType.packetArrival } : Event) ∈
      (lb_state0 1 1 1 2 (fun _ => 1)).event_queue ∨
      (1:ℚ) < (lb_state0 1 1 1 2 (fun _ => 1)).run_time) := by
  have hm : ({ time := 1, etype := EType.packetArrival } : Event) ∈
      (lb_packet_arrival_event (lb_state0 1 1 1 2 (fun _ => 1))).event_queue := by
    norm_num [lb_packet_arrival_event, lb_generate_exponential, lb_schedule,
      lb_state0, insertByTime]
  exact ⟨hm, c3_amended_horizon_checks.1 _ _ hm⟩

/-! ### C8: parameter validation -/

/-- C8 as stated is false: construction with a negative capacity, a
negative arrival rate and a negative horizon succeeds (no
InvalidParameter is raised anywhere in the code), and sampling with
mean 0 succeeds and returns 0 instead of failing. -/
theorem c8_no_invalid_parameter_check :
    exceptOk (lb_init (-3) 5 (-1) (-2) (fun _ => 1)) = true ∧
    np_exponential 0 1 = .ok 0 := by
  constructor
  · norm_num [lb_init, exceptOk]
  · norm_num [np_exponential]

/-- C8 amended: the constructors perform no parameter validation at
all.  Part 1 construction succeeds for every parameter set whose output
rate is nonzero, and fails (with the library ZeroDivisionError, not an
InvalidParameter) exactly when the output rate is zero, because
__init__ computes 1/output_rate; the exponential sampler rejects only a
negative scale (the numpy ValueError) and returns a sample for every
nonnegative mean, including mean 0. -/
theorem c8_amended_no_validation (B : ℤ) (R lam T : ℚ) (rng : ℕ → ℚ)
    (scale u : ℚ) (hR : R ≠ 0) (hscale : 0 ≤ scale) :
    exceptOk (lb_init B R lam T rng) = true ∧
    lb_init B 0 lam T rng = .error .zeroDivisionError ∧
    np_exponential scale u = .ok (scale * u) ∧
    (scale < 0 ↔ ∀ u' : ℚ, np_exponential scale u' = .error .valueError) := by
  refine ⟨?_, ?_, ?_, ?_⟩
  · simp [lb_init, exceptOk, hR]
  · simp [lb_init]
  · simp [np_exponential, not_lt.mpr hscale]
  · constructor
    · intro hneg u'
      simp [np_exponential, hneg]
    · intro hall
      by_contra hge
      have := hall 0
      simp [np_exponential, hge] at this

/-- Witness for the amended C8 at concrete parameters. -/
theorem c8_amended_no_validation_witness :
    exceptOk (lb_init 3 2 5 7 (fun _ => 1)) = true ∧
    lb_init 3 0 5 7 (fun _ => 1) = .error .zeroDivisionError ∧
    np_exponential 4 9 = .ok (4 * 9) ∧
    ((4:ℚ) < 0 ↔ ∀ u' : ℚ, np_exponential 4 u' = .error .valueError) :=
  c8_amended_no_validation 3 2 5 7 (fun _ => 1) 4 9 (by norm_num) (by norm_num)

/-! ### C6: bit-counting leaky bucket per-tick budget -/

theorem bb_drain_bits_le (q : List BPacket) (c : ℚ) (hc : 0 ≤ c) :
    (bb_drain c q).2.2.2 ≤ c := by
  induction q generalizing c with
  | nil => simpa [bb_drain] using hc
  | cons p rest ih =>
    simp only [bb_drain]
    split_ifs with hfit
    · have hr := ih (c - p.size) (by linarith)
      dsimp only
      linarith
    · simpa using hc

/-- C6: in one CLOCK_TICK invocation of the bit-counting leaky bucket,
the bits transmitted are at most n = output_rate × tick_period: the
budget is reset to n when the tick starts (the previous bit_counter
value c is irrelevant to the handler's result, so unused budget is
never carried over), it is decremented by each transmitted packet's
size, and transmission stops as soon as the head packet no longer fits
or the queue is empty. -/
theorem c6_bb_per_tick_budget (s : BBState) (c : ℚ)
    (hn : s.n = s.output_rate * s.clock_period)
    (hR : 0 ≤ s.output_rate) (hT : 0 ≤ s.clock_period) :
    (bb_clock_tick_event s).bits_transmitted - s.bits_transmitted ≤
      s.output_rate * s.clock_period ∧
    bb_clock_tick_event { s with bit_counter := c } = bb_clock_tick_event s := by
  have hn0 : 0 ≤ s.n := by rw [hn]; exact mul_nonneg hR hT
  have hd := bb_drain_bits_le s.packet_queue s.n hn0
  constructor
  · simp only [bb_clock_tick_event, bb_schedule]
    split_ifs <;> dsimp only <;> linarith
  · rfl

/-- Witness for C6 at a concrete state (output_rate 2, clock period 1,
stale bit_counter 42). -/
theorem c6_bb_per_tick_budget_witness :
    (bb_clock_tick_event (bb_state0 2 1 [1] 3 1 5 (fun _ => 1) (fun _ => 1))).bits_transmitted -
      (bb_state0 2 1 [1] 3 1 5 (fun _ => 1) (fun _ => 1)).bits_transmitted ≤
      (bb_state0 2 1 [1] 3 1 5 (fun _ => 1) (fun _ => 1)).output_rate *
      (bb_state0 2 1 [1] 3 1 5 (fun _ => 1) (fun _ => 1)).clock_period ∧
    bb_clock_tick_event
        { bb_state0 2 1 [1] 3 1 5 (fun _ => 1) (fun _ => 1) with bit_counter := 42 } =
      bb_clock_tick_event (bb_state0 2 1 [1] 3 1 5 (fun _ => 1) (fun _ => 1)) :=
  c6_bb_per_tick_budget (bb_state0 2 1 [1] 3 1 5 (fun _ => 1) (fun _ => 1)) 42
    (by norm_num [bb_state0]) (by norm_num [bb_state0]) (by norm_num [bb_state0])

/-! ### C10: tokens and queued packets never coexist (part 3a) -/

theorem tb_try_transmit_zero_or_empty (l : List ℚ) (tok : ℤ) (tx : ℕ)
    (h : 0 ≤ tok) :
    0 ≤ (tb_try_transmit l tok tx).2.1 ∧
    ((tb_try_transmit l tok tx).2.1 = 0 ∨ (tb_try_transmit l tok tx).1 = []) := by
  induction l generalizing tok tx with
  | nil => exact ⟨h, Or.inr rfl⟩
  | cons p rest ih =>
    simp only [tb_try_transmit]
    split_ifs with hpos
    · exact ih _ _ (by omega)
    · exact ⟨h, Or.inl (le_antisymm (not_lt.mp hpos) h)⟩

theorem tb_try_transmit_tok_le (l : List ℚ) (tok : ℤ) (tx : ℕ) :
    (tb_try_transmit l tok tx).2.1 ≤ tok := by
  induction l generalizing tok tx with
  | nil => exact le_refl _
  | cons p rest ih =>
    simp only [tb_try_transmit]
    split_ifs with hpos
    · exact le_trans (ih _ _) (by omega)
    · exact le_refl _

theorem tb_excl_arrival (s : TBState) (h : tb_excl s) :
    tb_excl (tb_packet_arrival_event s) := by
  obtain ⟨h0, hz⟩ := h
  unfold tb_excl
  simp only [tb_packet_arrival_event, tb_try_transmit_packet,
    tb_generate_exponential, tb_schedule]
  split_ifs <;>
    first
      | exact tb_try_transmit_zero_or_empty _ _ _ h0
      | exact ⟨h0, hz⟩

theorem tb_excl_tokengen (s : TBState) (h : tb_excl s) :
    tb_excl (tb_token_generation_event s) := by
  obtain ⟨h0, hz⟩ := h
  unfold tb_excl
  simp only [tb_token_generation_event, tb_try_transmit_packet, tb_schedule]
  split_ifs <;>
    first
      | exact tb_try_transmit_zero_or_empty _ _ _ (by dsimp only; omega)
      | exact tb_try_transmit_zero_or_empty _ _ _ h0

theorem tb_excl_dispatch (e : Event) (s : TBState) (h : tb_excl s) :
    tb_excl (tb_dispatch e s) := by
  rcases e with ⟨t, ety⟩
  rcases ety
  · exact tb_excl_arrival _ h
  · exact h
  · exact tb_excl_tokengen _ h

theorem tb_excl_run (fuel : ℕ) (s : TBState) (h : tb_excl s) :
    tb_excl (tb_run fuel s).1 := by
  induction fuel generalizing s with
  | zero => exact h
  | succ n ih =>
    rw [tb_run]
    rcases hq : s.event_queue with _ | ⟨e, rest⟩
    · exact h
    · dsimp only
      split
      · exact h
      · exact ih _ (tb_excl_dispatch e _ h)

/-- C10: after every dispatched event of every part 3a run, either the
token count is zero or the data bucket is empty, because the drain loop
runs after every token addition and every successful enqueue (and a
drop leaves both unchanged). -/
theorem c10_tokens_never_coexist_with_queue (fuel : ℕ) (Bt Bd : ℤ)
    (tr lam T : ℚ) (rng : ℕ → ℚ) :
    (tb_run fuel (tb_seed (tb_state0 Bt Bd tr lam T rng))).1.token_bucket = 0 ∨
    (tb_run fuel (tb_seed (tb_state0 Bt Bd tr lam T rng))).1.data_bucket = [] :=
  (tb_excl_run fuel _ ⟨le_refl 0, Or.inl rfl⟩).2

/-! ### C5: token level stays within [0, capacity] -/

theorem tb_inrange_arrival (cap : ℤ) (s : TBState) (h : tb_inrange cap s) :
    tb_inrange cap (tb_packet_arrival_event s) := by
  obtain ⟨h0, hhi, hceq⟩ := h
  unfold tb_inrange
  simp only [tb_packet_arrival_event, tb_try_transmit_packet,
    tb_generate_exponential, tb_schedule]
  split_ifs <;>
    first
      | exact ⟨(tb_try_transmit_zero_or_empty _ _ _ h0).1,
          le_trans (tb_try_transmit_tok_le _ _ _) hhi, hceq⟩
      | exact ⟨h0, hhi, hceq⟩

theorem tb_inrange_tokengen (cap : ℤ) (s : TBState) (h : tb_inrange cap s) :
    tb_inrange cap (tb_token_generation_event s) := by
  obtain ⟨h0, hhi, hceq⟩ := h
  unfold tb_inrange
  simp only [tb_token_generation_event, tb_try_transmit_packet, tb_schedule]
  split_ifs with h1 <;>
    first
      | exact ⟨(tb_try_transmit_zero_or_empty _ _ _ (by dsimp only; omega)).1,
          le_trans (tb_try_transmit_tok_le _ _ _) (by dsimp only; omega), hceq⟩
      | exact ⟨(tb_try_transmit_zero_or_empty _ _ _ h0).1,
          le_trans (tb_try_transmit_tok_le _ _ _) hhi, hceq⟩

theorem tb_inrange_dispatch (cap : ℤ) (e : Event) (s : TBState)
    (h : tb_inrange cap s) : tb_inrange cap (tb_dispatch e s) := by
  rcases e with ⟨t, ety⟩
  rcases ety
  · exact tb_inrange_arrival cap _ h
  · exact h
  · exact tb_inrange_tokengen cap _ h

theorem tb_inrange_run (cap : ℤ) (fuel : ℕ) (s : TBState)
    (h : tb_inrange cap s) : tb_inrange cap (tb_run fuel s).1 := by
  induction fuel generalizing s with
  | zero => exact h
  | succ n ih =>
    rw [tb_run]
    rcases hq : s.event_queue with _ | ⟨e, rest⟩
    · exact h
    · dsimp only
      split
      · exact h
      · exact ih _ (tb_inrange_dispatch cap e _ h)

theorem btb_inv_copy (cap : ℚ) (s s' : BTBState) (h : BTBInv cap s)
    (h1 : s'.token_bucket_size = s.token_bucket_size)
    (h2 : s'.event_queue = s.event_queue)
    (h3 : s'.current_time = s.current_time)
    (h4 : s'.last_token_update = s.last_token_update)
    (h5 : s'.token_bucket = s.token_bucket)
    (h6 : s'.token_rate = s.token_rate)
    (h7 : s'.arrival_rate = s.arrival_rate)
    (h8 : s'.rng = s.rng)
    (h9 : s'.size_draws = s.size_draws)
    (h10 : s'.data_bucket = s.data_bucket) :
    BTBInv cap s' :=
  { cap_eq := h1 ▸ h.cap_eq
    cap_nonneg := h.cap_nonneg
    sorted := h2 ▸ h.sorted
    lower := by rw [h2, h3]; exact h.lower
    last_le := by rw [h3, h4]; exact h.last_le
    tok_lo := h5 ▸ h.tok_lo
    tok_hi := h5 ▸ h.tok_hi
    rate_nonneg := h6 ▸ h.rate_nonneg
    lam_pos := h7 ▸ h.lam_pos
    rng_nonneg := by rw [h8]; exact h.rng_nonneg
    size_nonneg := by rw [h9]; exact h.size_nonneg
    queue_sizes := by rw [h10]; exact h.queue_sizes }

theorem btb_update_tokens_inv (cap : ℚ) (s : BTBState) (h : BTBInv cap s) :
    BTBInv cap (btb_update_tokens s s.current_time) :=
  { cap_eq := h.cap_eq
    cap_nonneg := h.cap_nonneg
    sorted := h.sorted
    lower := h.lower
    last_le := le_refl _
    tok_lo := le_min
      (add_nonneg h.tok_lo
        (mul_nonneg (by linarith [h.last_le]) h.rate_nonneg))
      (h.cap_eq ▸ h.cap_nonneg)
    tok_hi := h.cap_eq ▸ min_le_right _ _
    rate_nonneg := h.rate_nonneg
    lam_pos := h.lam_pos
    rng_nonneg := h.rng_nonneg
    size_nonneg := h.size_nonneg
    queue_sizes := h.queue_sizes }

theorem btb_try_transmit_facts (l : List BPacket) (tok : ℚ) (tx : ℕ)
    (bits : ℚ) (h0 : 0 ≤ tok) (hsz : ∀ p ∈ l, 0 ≤ p.size) :
    0 ≤ (btb_try_transmit l tok tx bits).2.1 ∧
    (btb_try_transmit l tok tx bits).2.1 ≤ tok ∧
    ∀ p ∈ (btb_try_transmit l tok tx bits).1, p ∈ l := by
  induction l generalizing tok tx bits with
  | nil => exact ⟨h0, le_refl _, fun p hp => hp⟩
  | cons p rest ih =>
    simp only [btb_try_transmit]
    split_ifs with hfit
    · have hp0 := hsz p (List.mem_cons_self p rest)
      have hr := ih (tok - p.size) (tx + 1) (bits + p.size) (by linarith)
        (fun q hq => hsz q (List.mem_cons_of_mem _ hq))
      exact ⟨hr.1, le_trans hr.2.1 (by linarith),
        fun q hq => List.mem_cons_of_mem _ (hr.2.2 q hq)⟩
    · exact ⟨h0, le_refl _, fun q hq => hq⟩

theorem btb_inv_try_transmit (cap : ℚ) (s : BTBState) (h : BTBInv cap s) :
    BTBInv cap (btb_try_transmit_packets s) :=
  have key := btb_try_transmit_facts s.data_bucket s.token_bucket
    s.packets_transmitted s.bits_transmitted h.tok_lo h.queue_sizes
  { cap_eq := h.cap_eq
    cap_nonneg := h.cap_nonneg
    sorted := h.sorted
    lower := h.lower
    last_le := h.last_le
    tok_lo := key.1
    tok_hi := le_trans key.2.1 h.tok_hi
    rate_nonneg := h.rate_nonneg
    lam_pos := h.lam_pos
    rng_nonneg := h.rng_nonneg
    size_nonneg := h.size_nonneg
    queue_sizes := fun p hp => h.queue_sizes p (key.2.2 p hp) }

theorem btb_inv_schedule (cap : ℚ) (s : BTBState) (tt : ℚ) (ety : EType)
    (h : BTBInv cap s) (ht : s.current_time ≤ tt) :
    BTBInv cap (btb_schedule s { time := tt, etype := ety }) :=
  { cap_eq := h.cap_eq
    cap_nonneg := h.cap_nonneg
    sorted := pairwise_insertByTime _ _ _ h.sorted
    lower := by
      intro e he
      rcases (mem_insertByTime Event.time _ s.event_queue e).mp he with rfl | hm
      · exact ht
      · exact h.lower e hm
    last_le := h.last_le
    tok_lo := h.tok_lo
    tok_hi := h.tok_hi
    rate_nonneg := h.rate_nonneg
    lam_pos := h.lam_pos
    rng_nonneg := h.rng_nonneg
    size_nonneg := h.size_nonneg
    queue_sizes := h.queue_sizes }

theorem btb_inv_arrival (cap : ℚ) (s : BTBState) (h : BTBInv cap s) :
    BTBInv cap (btb_packet_arrival_event s) := by
  have h1 : BTBInv cap
      { s with packets_arrived := s.packets_arrived + 1,
               size_idx := s.size_idx + 1 } :=
    btb_inv_copy cap s _ h rfl rfl rfl rfl rfl rfl rfl rfl rfl rfl
  have h2 := btb_update_tokens_inv cap _ h1
  have h3 : BTBInv cap
      (btb_try_transmit_packets
        { btb_update_tokens
            { s with packets_arrived := s.packets_arrived + 1,
                     size_idx := s.size_idx + 1 } s.current_time with
          data_bucket :=
            (btb_update_tokens
              { s with packets_arrived := s.packets_arrived + 1,
                       size_idx := s.size_idx + 1 } s.current_time).data_bucket
            ++ [{ arrival_time := s.current_time,
                  size := s.size_draws s.size_idx }] }) := by
    refine btb_inv_try_transmit cap _ ?_
    exact
      { cap_eq := h2.cap_eq
        cap_nonneg := h2.cap_nonneg
        sorted := h2.sorted
        lower := h2.lower
        last_le := h2.last_le
        tok_lo := h2.tok_lo
        tok_hi := h2.tok_hi
        rate_nonneg := h2.rate_nonneg
        lam_pos := h2.lam_pos
        rng_nonneg := h2.rng_nonneg
        size_nonneg := h2.size_nonneg
        queue_sizes := by
          intro p hp
          rcases List.mem_append.mp hp with hm | hm
          · exact h2.queue_sizes p hm
          · rcases List.mem_singleton.mp hm with rfl
            exact h.size_nonneg s.size_idx }
  have hx : 0 ≤ 1 / s.arrival_rate * s.rng s.rng_idx :=
    mul_nonneg (one_div_nonneg.mpr (le_of_lt h.lam_pos))
      (h.rng_nonneg s.rng_idx)
  simp only [btb_packet_arrival_event, btb_generate_packet_size,
    btb_generate_exponential]
  split_ifs with hcap hsch hsch
  · refine btb_inv_schedule cap _ _ _
      (btb_inv_copy cap _ _ h3 rfl rfl rfl rfl rfl rfl rfl rfl rfl rfl) ?_
    dsimp only [btb_try_transmit_packets, btb_update_tokens]
    linarith
  · exact btb_inv_copy cap _ _ h3 rfl rfl rfl rfl rfl rfl rfl rfl rfl rfl
  · refine btb_inv_schedule cap _ _ _
      (btb_inv_copy cap _ _ h2 rfl rfl rfl rfl rfl rfl rfl rfl rfl rfl) ?_
    dsimp only [btb_try_transmit_packets, btb_update_tokens]
    linarith
  · exact btb_inv_copy cap _ _ h2 rfl rfl rfl rfl rfl rfl rfl rfl rfl rfl

theorem btb_inv_step (cap : ℚ) (s : BTBState) (e : Event) (rest : List Event)
    (hq : s.event_queue = e :: rest) (h : BTBInv cap s) :
    BTBInv cap
      { btb_update_statistics { s with event_queue := rest } with
        current_time := e.time } := by
  have hsorted := hq ▸ h.sorted
  rw [List.pairwise_cons] at hsorted
  have hcur : s.current_time ≤ e.time :=
    h.lower e (by rw [hq]; exact List.mem_cons_self _ _)
  exact
    { cap_eq := h.cap_eq
      cap_nonneg := h.cap_nonneg
      sorted := hsorted.2
      lower := fun e' he' => hsorted.1 e' he'
      last_le := le_trans h.last_le hcur
      tok_lo := h.tok_lo
      tok_hi := h.tok_hi
      rate_nonneg := h.rate_nonneg
      lam_pos := h.lam_pos
      rng_nonneg := h.rng_nonneg
      size_nonneg := h.size_nonneg
      queue_sizes := h.queue_sizes }

theorem btb_inv_run (cap : ℚ) (fuel : ℕ) (s : BTBState) (h : BTBInv cap s) :
    BTBInv cap (btb_run fuel s).1 := by
  induction fuel generalizing s with
  | zero => exact h
  | succ n ih =>
    rw [btb_run]
    rcases hq : s.event_queue with _ | ⟨e, rest⟩
    · exact h
    · dsimp only
      split
      · exact h
      · have hstep := btb_inv_step cap s e rest hq h
        rcases he : e.etype
        · simp only [he]
          exact ih _ (btb_inv_arrival cap _ hstep)
        · simp only [he]
          exact ih _ hstep
        · simp only [he]
          exact ih _ hstep

/-- C5: in every reachable state of both token-bucket models the token
level stays nonnegative and never exceeds the configured capacity: the
packet-counting model adds one token only below the capacity and spends
only positive tokens; the bit-counting model clamps its lazy accrual at
the capacity and spends only a covered packet size.  Stated for every
fuel bound, i.e. after every number of dispatched events of every run
(the token-bucket starts full in part 3b, empty in part 3a). -/
theorem c5_token_level_bounds (fuel : ℕ) (Bt Bd : ℤ) (tr lam T : ℚ)
    (rng : ℕ → ℚ) (hBt : 0 ≤ Bt)
    (Btq : ℚ) (Bd2 : ℤ) (tr2 lam2 : ℚ) (szs : List ℚ) (T2 : ℚ)
    (rng2 draws2 : ℕ → ℚ) (hBtq : 0 ≤ Btq) (htr2 : 0 ≤ tr2)
    (hlam2 : 0 < lam2) (hrng2 : ∀ i, 0 ≤ rng2 i)
    (hdraws2 : ∀ i, 0 ≤ draws2 i) :
    (0 ≤ (tb_run fuel (tb_seed (tb_state0 Bt Bd tr lam T rng))).1.token_bucket ∧
      (tb_run fuel (tb_seed (tb_state0 Bt Bd tr lam T rng))).1.token_bucket
        ≤ Bt) ∧
    (0 ≤ (btb_run fuel
        (btb_seed (btb_state0 Btq Bd2 tr2 lam2 szs T2 rng2 draws2))).1.token_bucket ∧
      (btb_run fuel
        (btb_seed (btb_state0 Btq Bd2 tr2 lam2 szs T2 rng2 draws2))).1.token_bucket
        ≤ Btq) := by
  constructor
  · have hres := tb_inrange_run Bt fuel (tb_seed (tb_state0 Bt Bd tr lam T rng))
      ⟨le_refl 0, hBt, rfl⟩
    exact ⟨hres.1, hres.2.1⟩
  · have hseedeq : btb_seed (btb_state0 Btq Bd2 tr2 lam2 szs T2 rng2 draws2) =
        { btb_state0 Btq Bd2 tr2 lam2 szs T2 rng2 draws2 with
          event_queue :=
            [{ time := 1 / lam2 * rng2 0, etype := EType.packetArrival }],
          rng_idx := 1, token_bucket := Btq, last_token_update := 0 } := rfl
    have hseed : BTBInv Btq
        (btb_seed (btb_state0 Btq Bd2 tr2 lam2 szs T2 rng2 draws2)) :=
      { cap_eq := rfl
        cap_nonneg := hBtq
        sorted := by rw [hseedeq]; simp
        lower := by
          rw [hseedeq]
          intro e he
          rcases List.mem_singleton.mp he with rfl
          exact mul_nonneg (one_div_nonneg.mpr (le_of_lt hlam2)) (hrng2 0)
        last_le := le_refl _
        tok_lo := hBtq
        tok_hi := le_refl _
        rate_nonneg := htr2
        lam_pos := hlam2
        rng_nonneg := hrng2
        size_nonneg := hdraws2
        queue_sizes := fun p hp => (List.not_mem_nil p hp).elim }
    have hres := btb_inv_run Btq fuel _ hseed
    exact ⟨hres.tok_lo, hres.tok_hi⟩

/-- Witness for C5 at concrete parameters. -/
theorem c5_token_level_bounds_witness :
    (0 ≤ (tb_run 1 (tb_seed (tb_state0 1 1 1 1 1 (fun _ => 1)))).1.token_bucket ∧
      (tb_run 1 (tb_seed (tb_state0 1 1 1 1 1 (fun _ => 1)))).1.token_bucket
        ≤ 1) ∧
    (0 ≤ (btb_run 1
        (btb_seed (btb_state0 1 1 1 1 [1] 1 (fun _ => 1) (fun _ => 1)))).1.token_bucket ∧
      (btb_run 1
        (btb_seed (btb_state0 1 1 1 1 [1] 1 (fun _ => 1) (fun _ => 1)))).1.token_bucket
        ≤ 1) :=
  c5_token_level_bounds 1 1 1 1 1 1 (fun _ => 1) (by norm_num)
    1 1 1 1 [1] 1 (fun _ => 1) (fun _ => 1) (by norm_num) (by norm_num)
    (by norm_num) (fun i => by norm_num) (fun i => by norm_num)

/-! ### C7: determinism and dispatch order -/

theorem lb_ord_copy (s s' : LBState) (h : LBOrd s)
    (h1 : s'.event_queue = s.event_queue)
    (h2 : s'.current_time = s.current_time)
    (h3 : s'.tick_period = s.tick_period)
    (h4 : s'.arrival_rate = s.arrival_rate)
    (h5 : s'.rng = s.rng) : LBOrd s' :=
  { sorted := h1 ▸ h.sorted
    lower := by rw [h1, h2]; exact h.lower
    tick_nonneg := h3 ▸ h.tick_nonneg
    lam_pos := h4 ▸ h.lam_pos
    rng_nonneg := by rw [h5]; exact h.rng_nonneg }

theorem lb_ord_schedule (s : LBState) (tt : ℚ) (ety : EType) (h : LBOrd s)
    (ht : s.current_time ≤ tt) :
    LBOrd (lb_schedule s { time := tt, etype := ety }) :=
  { sorted := pairwise_insertByTime _ _ _ h.sorted
    lower := by
      intro e he
      rcases (mem_insertByTime Event.time _ s.event_queue e).mp he with rfl | hm
      · exact ht
      · exact h.lower e hm
    tick_nonneg := h.tick_nonneg
    lam_pos := h.lam_pos
    rng_nonneg := h.rng_nonneg }

theorem lb_ord_arrival (s : LBState) (h : LBOrd s) :
    LBOrd (lb_packet_arrival_event s) := by
  have hx : 0 ≤ 1 / s.arrival_rate * s.rng s.rng_idx :=
    mul_nonneg (one_div_nonneg.mpr (le_of_lt h.lam_pos))
      (h.rng_nonneg s.rng_idx)
  simp only [lb_packet_arrival_event, lb_generate_exponential]
  split_ifs with hc hs hs
  · refine lb_ord_schedule _ _ _ (lb_ord_copy _ _ h rfl rfl rfl rfl rfl) ?_
    dsimp only
    linarith
  · exact lb_ord_copy _ _ h rfl rfl rfl rfl rfl
  · refine lb_ord_schedule _ _ _ (lb_ord_copy _ _ h rfl rfl rfl rfl rfl) ?_
    dsimp only
    linarith
  · exact lb_ord_copy _ _ h rfl rfl rfl rfl rfl

theorem lb_ord_tick (s : LBState) (h : LBOrd s) :
    LBOrd (lb_clock_tick_event s) := by
  simp only [lb_clock_tick_event]
  rcases hq : s.packet_queue with _ | ⟨p, rest⟩ <;> simp only [hq] <;>
    split_ifs with hs <;>
    first
      | exact lb_ord_copy _ _ h rfl rfl rfl rfl rfl
      | (refine lb_ord_schedule _ _ _ (lb_ord_copy _ _ h rfl rfl rfl rfl rfl) ?_
         dsimp only
         linarith [h.tick_nonneg])

theorem lb_dispatch_current_time (e : Event) (s : LBState) :
    (lb_dispatch e s).current_time = s.current_time := by
  rcases e with ⟨t, ety⟩
  rcases ety <;>
    simp only [lb_dispatch, lb_packet_arrival_event, lb_clock_tick_event,
      lb_generate_exponential, lb_schedule] <;>
  first
    | rfl
    | (split_ifs <;> rfl)
    | (rcases hq : s.packet_queue with _ | ⟨p, rest⟩ <;> simp only [hq] <;>
        split_ifs <;> rfl)

theorem lb_ord_dispatch (e : Event) (s : LBState) (h : LBOrd s) :
    LBOrd (lb_dispatch e s) := by
  rcases e with ⟨t, ety⟩
  rcases ety
  · exact lb_ord_arrival _ h
  · exact lb_ord_tick _ h
  · exact h

theorem lb_ord_step (s : LBState) (e : Event) (rest : List Event)
    (hq : s.event_queue = e :: rest) (h : LBOrd s) :
    LBOrd { lb_update_statistics { s with event_queue := rest } with
            current_time := e.time } := by
  have hsorted := hq ▸ h.sorted
  rw [List.pairwise_cons] at hsorted
  exact
    { sorted := hsorted.2
      lower := fun e' he' => hsorted.1 e' he'
      tick_nonneg := h.tick_nonneg
      lam_pos := h.lam_pos
      rng_nonneg := h.rng_nonneg }

theorem lb_run_chain (fuel : ℕ) (s : LBState) (h : LBOrd s) :
    List.Chain' (· ≤ ·) (lb_run fuel s).2 ∧
    ∀ x ∈ (lb_run fuel s).2, s.current_time ≤ x := by
  induction fuel generalizing s with
  | zero =>
    exact ⟨List.chain'_nil, by intro x hx; simp [lb_run] at hx⟩
  | succ n ih =>
    rw [lb_run]
    rcases hq : s.event_queue with _ | ⟨e, rest⟩
    · exact ⟨List.chain'_nil, by intro x hx; simp at hx⟩
    · dsimp only
      split
      · exact ⟨List.chain'_nil, by intro x hx; simp at hx⟩
      · have hcur : s.current_time ≤ e.time :=
          h.lower e (by rw [hq]; exact List.mem_cons_self _ _)
        have hd : LBOrd (lb_dispatch e
            { lb_update_statistics { s with event_queue := rest } with
              current_time := e.time }) :=
          lb_ord_dispatch _ _ (lb_ord_step s e rest hq h)
        have hdc := lb_dispatch_current_time e
          { lb_update_statistics { s with event_queue := rest } with
            current_time := e.time }
        obtain ⟨hch, hlo⟩ := ih _ hd
        rw [hdc] at hlo
        constructor
        · rw [List.chain'_cons']
          exact ⟨fun y hy => hlo y (List.mem_of_mem_head? hy), hch⟩
        · intro x hx
          rcases List.mem_cons.mp hx with rfl | hx
          · exact hcur
          · exact le_trans hcur (hlo x hx)

theorem lb_ord_seed (B : ℤ) (R lam T : ℚ) (rng : ℕ → ℚ)
    (hR : 0 < R) (hlam : 0 < lam) (hrng : ∀ i, 0 ≤ rng i) :
    LBOrd (lb_seed (lb_state0 B R lam T rng)) := by
  have h0 : LBOrd (lb_state0 B R lam T rng) :=
    { sorted := List.Pairwise.nil
      lower := fun e he => (List.not_mem_nil e he).elim
      tick_nonneg := one_div_nonneg.mpr (le_of_lt hR)
      lam_pos := hlam
      rng_nonneg := hrng }
  simp only [lb_seed, lb_generate_exponential]
  refine lb_ord_schedule _ _ _ ?_ ?_
  · refine lb_ord_schedule _ _ _ (lb_ord_copy _ _ h0 rfl rfl rfl rfl rfl) ?_
    dsimp only
    exact mul_nonneg (one_div_nonneg.mpr (le_of_lt hlam)) (hrng 0)
  · dsimp only
    exact le_refl 0

theorem bb_ord_copy (s s' : BBState) (h : BBOrd s)
    (h1 : s'.event_queue = s.event_queue)
    (h2 : s'.current_time = s.current_time)
    (h3 : s'.clock_period = s.clock_period)
    (h4 : s'.arrival_rate = s.arrival_rate)
    (h5 : s'.rng = s.rng) : BBOrd s' :=
  { sorted := h1 ▸ h.sorted
    lower := by rw [h1, h2]; exact h.lower
    clock_nonneg := h3 ▸ h.clock_nonneg
    lam_pos := h4 ▸ h.lam_pos
    rng_nonneg := by rw [h5]; exact h.rng_nonneg }

theorem bb_ord_schedule (s : BBState) (tt : ℚ) (ety : EType) (h : BBOrd s)
    (ht : s.current_time ≤ tt) :
    BBOrd (bb_schedule s { time := tt, etype := ety }) :=
  { sorted := pairwise_insertByTime _ _ _ h.sorted
    lower := by
      intro e he
      rcases (mem_insertByTime Event.time _ s.event_queue e).mp he with rfl | hm
      · exact ht
      · exact h.lower e hm
    clock_nonneg := h.clock_nonneg
    lam_pos := h.lam_pos
    rng_nonneg := h.rng_nonneg }

theorem bb_ord_arrival (s : BBState) (h : BBOrd s) :
    BBOrd (bb_packet_arrival_event s) := by
  have hx : 0 ≤ 1 / s.arrival_rate * s.rng s.rng_idx :=
    mul_nonneg (one_div_nonneg.mpr (le_of_lt h.lam_pos))
      (h.rng_nonneg s.rng_idx)
  simp only [bb_packet_arrival_event, bb_generate_exponential,
    bb_generate_packet_size]
  split_ifs with hc hs hs
  · refine bb_ord_schedule _ _ _ (bb_ord_copy _ _ h rfl rfl rfl rfl rfl) ?_
    dsimp only
    linarith
  · exact bb_ord_copy _ _ h rfl rfl rfl rfl rfl
  · refine bb_ord_schedule _ _ _ (bb_ord_copy _ _ h rfl rfl rfl rfl rfl) ?_
    dsimp only
    linarith
  · exact bb_ord_copy _ _ h rfl rfl rfl rfl rfl

theorem bb_ord_tick (s : BBState) (h : BBOrd s) :
    BBOrd (bb_clock_tick_event s) := by
  simp only [bb_clock_tick_event]
  split_ifs with hs
  · refine bb_ord_schedule _ _ _ (bb_ord_copy _ _ h rfl rfl rfl rfl rfl) ?_
    dsimp only
    linarith [h.clock_nonneg]
  · exact bb_ord_copy _ _ h rfl rfl rfl rfl rfl

theorem bb_dispatch_current_time (e : Event) (s : BBState) :
    (bb_dispatch e s).current_time = s.current_time := by
  rcases e with ⟨t, ety⟩
  rcases ety <;>
    simp only [bb_dispatch, bb_packet_arrival_event, bb_clock_tick_event,
      bb_generate_exponential, bb_generate_packet_size, bb_schedule] <;>
  first
    | rfl
    | (split_ifs <;> rfl)

theorem bb_ord_dispatch (e : Event) (s : BBState) (h : BBOrd s) :
    BBOrd (bb_dispatch e s) := by
  rcases e with ⟨t, ety⟩
  rcases ety
  · exact bb_ord_arrival _ h
  · exact bb_ord_tick _ h
  · exact h

theorem bb_ord_step (s : BBState) (e : Event) (rest : List Event)
    (hq : s.event_queue = e :: rest) (h : BBOrd s) :
    BBOrd { bb_update_statistics { s with event_queue := rest } with
            current_time := e.time } := by
  have hsorted := hq ▸ h.sorted
  rw [List.pairwise_cons] at hsorted
  exact
    { sorted := hsorted.2
      lower := fun e' he' => hsorted.1 e' he'
      clock_nonneg := h.clock_nonneg
      lam_pos := h.lam_pos
      rng_nonneg := h.rng_nonneg }

theorem bb_run_chain (fuel : ℕ) (s : BBState) (h : BBOrd s) :
    List.Chain' (· ≤ ·) (bb_run fuel s).2 ∧
    ∀ x ∈ (bb_run fuel s).2, s.current_time ≤ x := by
  induction fuel generalizing s with
  | zero =>
    exact ⟨List.chain'_nil, by intro x hx; simp [bb_run] at hx⟩
  | succ n ih =>
    rw [bb_run]
    rcases hq : s.event_queue with _ | ⟨e, rest⟩
    · exact ⟨List.chain'_nil, by intro x hx; simp at hx⟩
    · dsimp only
      split
      · exact ⟨List.chain'_nil, by intro x hx; simp at hx⟩
      · have hcur : s.current_time ≤ e.time :=
          h.lower e (by rw [hq]; exact List.mem_cons_self _ _)
        have hd : BBOrd (bb_dispatch e
            { bb_update_statistics { s with event_queue := rest } with
              current_time := e.time }) :=
          bb_ord_dispatch _ _ (bb_ord_step s e rest hq h)
        have hdc := bb_dispatch_current_time e
          { bb_update_statistics { s with event_queue := rest } with
            current_time := e.time }
        obtain ⟨hch, hlo⟩ := ih _ hd
        rw [hdc] at hlo
        constructor
        · rw [List.chain'_cons']
          exact ⟨fun y hy => hlo y (List.mem_of_mem_head? hy), hch⟩
        · intro x hx
          rcases List.mem_cons.mp hx with rfl | hx
          · exact hcur
          · exact le_trans hcur (hlo x hx)

theorem bb_ord_seed (R lam : ℚ) (szs : List ℚ) (B : ℤ) (cp T : ℚ)
    (rng draws : ℕ → ℚ) (hcp : 0 ≤ cp) (hlam : 0 < lam)
    (hrng : ∀ i, 0 ≤ rng i) :
    BBOrd (bb_seed (bb_state0 R lam szs B cp T rng draws)) := by
  have h0 : BBOrd (bb_state0 R lam szs B cp T rng draws) :=
    { sorted := List.Pairwise.nil
      lower := fun e he => (List.not_mem_nil e he).elim
      clock_nonneg := hcp
      lam_pos := hlam
      rng_nonneg := hrng }
  simp only [bb_seed, bb_generate_exponential]
  refine bb_ord_schedule _ _ _ ?_ ?_
  · refine bb_ord_schedule _ _ _ (bb_ord_copy _ _ h0 rfl rfl rfl rfl rfl) ?_
    dsimp only
    exact mul_nonneg (one_div_nonneg.mpr (le_of_lt hlam)) (hrng 0)
  · dsimp only
    exact le_refl 0

theorem tb_ord_copy (s s' : TBState) (h : TBOrd s)
    (h1 : s'.event_queue = s.event_queue)
    (h2 : s'.current_time = s.current_time)
    (h3 : s'.token_rate = s.token_rate)
    (h4 : s'.arrival_rate = s.arrival_rate)
    (h5 : s'.rng = s.rng) : TBOrd s' :=
  { sorted := h1 ▸ h.sorted
    lower := by rw [h1, h2]; exact h.lower
    rate_nonneg := h3 ▸ h.rate_nonneg
    lam_pos := h4 ▸ h.lam_pos
    rng_nonneg := by rw [h5]; exact h.rng_nonneg }

theorem tb_ord_schedule (s : TBState) (tt : ℚ) (ety : EType) (h : TBOrd s)
    (ht : s.current_time ≤ tt) :
    TBOrd (tb_schedule s { time := tt, etype := ety }) :=
  { sorted := pairwise_insertByTime _ _ _ h.sorted
    lower := by
      intro e he
      rcases (mem_insertByTime Event.time _ s.event_queue e).mp he with rfl | hm
      · exact ht
      · exact h.lower e hm
    rate_nonneg := h.rate_nonneg
    lam_pos := h.lam_pos
    rng_nonneg := h.rng_nonneg }

theorem tb_ord_arrival (s : TBState) (h : TBOrd s) :
    TBOrd (tb_packet_arrival_event s) := by
  have hx : 0 ≤ 1 / s.arrival_rate * s.rng s.rng_idx :=
    mul_nonneg (one_div_nonneg.mpr (le_of_lt h.lam_pos))
      (h.rng_nonneg s.rng_idx)
  simp only [tb_packet_arrival_event, tb_generate_exponential,
    tb_try_transmit_packet]
  split_ifs with hc hs hs
  · refine tb_ord_schedule _ _ _ (tb_ord_copy _ _ h rfl rfl rfl rfl rfl) ?_
    dsimp only
    linarith
  · exact tb_ord_copy _ _ h rfl rfl rfl rfl rfl
  · refine tb_ord_schedule _ _ _ (tb_ord_copy _ _ h rfl rfl rfl rfl rfl) ?_
    dsimp only
    linarith
  · exact tb_ord_copy _ _ h rfl rfl rfl rfl rfl

theorem tb_ord_tokengen (s : TBState) (h : TBOrd s) :
    TBOrd (tb_token_generation_event s) := by
  have hx : 0 ≤ 1 / s.token_rate :=
    one_div_nonneg.mpr h.rate_nonneg
  simp only [tb_token_generation_event, tb_try_transmit_packet]
  split_ifs with hc hs hs
  · refine tb_ord_schedule _ _ _ (tb_ord_copy _ _ h rfl rfl rfl rfl rfl) ?_
    dsimp only
    linarith
  · exact tb_ord_copy _ _ h rfl rfl rfl rfl rfl
  · refine tb_ord_schedule _ _ _ (tb_ord_copy _ _ h rfl rfl rfl rfl rfl) ?_
    dsimp only
    linarith
  · exact tb_ord_copy _ _ h rfl rfl rfl rfl rfl

theorem tb_dispatch_current_time (e : Event) (s : TBState) :
    (tb_dispatch e s).current_time = s.current_time := by
  rcases e with ⟨t, ety⟩
  rcases ety <;>
    simp only [tb_dispatch, tb_packet_arrival_event, tb_token_generation_event,
      tb_generate_exponential, tb_try_transmit_packet, tb_schedule] <;>
  first
    | rfl
    | (split_ifs <;> rfl)

theorem tb_ord_dispatch (e : Event) (s : TBState) (h : TBOrd s) :
    TBOrd (tb_dispatch e s) := by
  rcases e with ⟨t, ety⟩
  rcases ety
  · exact tb_ord_arrival _ h
  · exact h
  · exact tb_ord_tokengen _ h

theorem tb_ord_step (s : TBState) (e : Event) (rest : List Event)
    (hq : s.event_queue = e :: rest) (h : TBOrd s) :
    TBOrd { tb_update_statistics { s with event_queue := rest } with
            current_time := e.time } := by
  have hsorted := hq ▸ h.sorted
  rw [List.pairwise_cons] at hsorted
  exact
    { sorted := hsorted.2
      lower := fun e' he' => hsorted.1 e' he'
      rate_nonneg := h.rate_nonneg
      lam_pos := h.lam_pos
      rng_nonneg := h.rng_nonneg }

theorem tb_run_chain (fuel : ℕ) (s : TBState) (h : TBOrd s) :
    List.Chain' (· ≤ ·) (tb_run fuel s).2 ∧
    ∀ x ∈ (tb_run fuel s).2, s.current_time ≤ x := by
  induction fuel generalizing s with
  | zero =>
    exact ⟨List.chain'_nil, by intro x hx; simp [tb_run] at hx⟩
  | succ n ih =>
    rw [tb_run]
    rcases hq : s.event_queue with _ | ⟨e, rest⟩
    · exact ⟨List.chain'_nil, by intro x hx; simp at hx⟩
    · dsimp only
      split
      · exact ⟨List.chain'_nil, by intro x hx; simp at hx⟩
      · have hcur : s.current_time ≤ e.time :=
          h.lower e (by rw [hq]; exact List.mem_cons_self _ _)
        have hd : TBOrd (tb_dispatch e
            { tb_update_statistics { s with event_queue := rest } with
              current_time := e.time }) :=
          tb_ord_dispatch _ _ (tb_ord_step s e rest hq h)
        have hdc := tb_dispatch_current_time e
          { tb_update_statistics { s with event_queue := rest } with
            current_time := e.time }
        obtain ⟨hch, hlo⟩ := ih _ hd
        rw [hdc] at hlo
        constructor
        · rw [List.chain'_cons']
          exact ⟨fun y hy => hlo y (List.mem_of_mem_head? hy), hch⟩
        · intro x hx
          rcases List.mem_cons.mp hx with rfl | hx
          · exact hcur
          · exact le_trans hcur (hlo x hx)

theorem tb_ord_seed (Bt Bd : ℤ) (tr lam T : ℚ) (rng : ℕ → ℚ)
    (htr : 0 ≤ tr) (hlam : 0 < lam) (hrng : ∀ i, 0 ≤ rng i) :
    TBOrd (tb_seed (tb_state0 Bt Bd tr lam T rng)) := by
  have h0 : TBOrd (tb_state0 Bt Bd tr lam T rng) :=
    { sorted := List.Pairwise.nil
      lower := fun e he => (List.not_mem_nil e he).elim
      rate_nonneg := htr
      lam_pos := hlam
      rng_nonneg := hrng }
  simp only [tb_seed, tb_generate_exponential]
  refine tb_ord_schedule _ _ _ ?_ ?_
  · refine tb_ord_schedule _ _ _ (tb_ord_copy _ _ h0 rfl rfl rfl rfl rfl) ?_
    dsimp only
    exact mul_nonneg (one_div_nonneg.mpr (le_of_lt hlam)) (hrng 0)
  · dsimp only
    exact one_div_nonneg.mpr htr

theorem btb_arrival_current_time (s : BTBState) :
    (btb_packet_arrival_event s).current_time = s.current_time := by
  simp only [btb_packet_arrival_event, btb_generate_exponential,
    btb_generate_packet_size, btb_update_tokens, btb_try_transmit_packets,
    btb_schedule]
  split_ifs <;> rfl

theorem btb_run_chain (cap : ℚ) (fuel : ℕ) (s : BTBState)
    (h : BTBInv cap s) :
    List.Chain' (· ≤ ·) (btb_run fuel s).2 ∧
    ∀ x ∈ (btb_run fuel s).2, s.current_time ≤ x := by
  induction fuel generalizing s with
  | zero =>
    exact ⟨List.chain'_nil, by intro x hx; simp [btb_run] at hx⟩
  | succ n ih =>
    rw [btb_run]
    rcases hq : s.event_queue with _ | ⟨e, rest⟩
    · exact ⟨List.chain'_nil, by intro x hx; simp at hx⟩
    · dsimp only
      split
      · exact ⟨List.chain'_nil, by intro x hx; simp at hx⟩
      · have hcur : s.current_time ≤ e.time :=
          h.lower e (by rw [hq]; exact List.mem_cons_self _ _)
        have hstep := btb_inv_step cap s e rest hq h
        rcases he : e.etype
        case packetArrival =>
          simp only [he]
          obtain ⟨hch, hlo⟩ := ih _ (btb_inv_arrival cap _ hstep)
          have hxx : (btb_packet_arrival_event
              { btb_update_statistics { s with event_queue := rest } with
                current_time := e.time }).current_time = e.time :=
            btb_arrival_current_time _
          rw [hxx] at hlo
          constructor
          · rw [List.chain'_cons']
            exact ⟨fun y hy => hlo y (List.mem_of_mem_head? hy), hch⟩
          · intro x hx
            rcases List.mem_cons.mp hx with rfl | hx
            · exact hcur
            · exact le_trans hcur (hlo x hx)
        case clockTick =>
          simp only [he]
          obtain ⟨hch, hlo⟩ := ih _ hstep
          have hxx : ({ btb_update_statistics { s with event_queue := rest } with
              current_time := e.time } : BTBState).current_time = e.time := rfl
          rw [hxx] at hlo
          constructor
          · rw [List.chain'_cons']
            exact ⟨fun y hy => hlo y (List.mem_of_mem_head? hy), hch⟩
          · intro x hx
            rcases List.mem_cons.mp hx with rfl | hx
            · exact hcur
            · exact le_trans hcur (hlo x hx)
        case tokenGeneration =>
          simp only [he]
          obtain ⟨hch, hlo⟩ := ih _ hstep
          have hxx : ({ btb_update_statistics { s with event_queue := rest } with
              current_time := e.time } : BTBState).current_time = e.time := rfl
          rw [hxx] at hlo
          constructor
          · rw [List.chain'_cons']
            exact ⟨fun y hy => hlo y (List.mem_of_mem_head? hy), hch⟩
          · intro x hx
            rcases List.mem_cons.mp hx with rfl | hx
            · exact hcur
            · exact le_trans hcur (hlo x hx)

theorem btb_seed_inv (Btq : ℚ) (Bd2 : ℤ) (tr2 lam2 : ℚ) (szs : List ℚ)
    (T2 : ℚ) (rng2 draws2 : ℕ → ℚ) (hBtq : 0 ≤ Btq) (htr2 : 0 ≤ tr2)
    (hlam2 : 0 < lam2) (hrng2 : ∀ i, 0 ≤ rng2 i)
    (hdraws2 : ∀ i, 0 ≤ draws2 i) :
    BTBInv Btq (btb_seed (btb_state0 Btq Bd2 tr2 lam2 szs T2 rng2 draws2)) :=
  { cap_eq := rfl
    cap_nonneg := hBtq
    sorted := by
      simp [btb_seed, btb_schedule, btb_generate_exponential, btb_state0,
        insertByTime]
    lower := by
      intro e he
      simp only [btb_seed, btb_schedule, btb_generate_exponential,
        btb_state0, insertByTime, List.mem_singleton] at he
      subst he
      exact mul_nonneg (one_div_nonneg.mpr (le_of_lt hlam2)) (hrng2 0)
    last_le := le_refl _
    tok_lo := hBtq
    tok_hi := le_refl _
    rate_nonneg := htr2
    lam_pos := hlam2
    rng_nonneg := hrng2
    size_nonneg := hdraws2
    queue_sizes := fun p hp => (List.not_mem_nil p hp).elim }

theorem ps_ord_copy (s s' : PSState) (h : PSOrd s)
    (h1 : s'.event_queue = s.event_queue)
    (h2 : s'.packet_queue = s.packet_queue)
    (h3 : s'.current_time = s.current_time)
    (h4 : s'.arrival_rate = s.arrival_rate)
    (h5 : s'.link_rate = s.link_rate)
    (h6 : s'.mean_packet_size = s.mean_packet_size)
    (h7 : s'.gaps = s.gaps)
    (h8 : s'.sizes = s.sizes) : PSOrd s' :=
  { sorted := h1 ▸ h.sorted
    lower := by rw [h1, h3]; exact h.lower
    lam_pos := h4 ▸ h.lam_pos
    link_pos := h5 ▸ h.link_pos
    msz_nonneg := h6 ▸ h.msz_nonneg
    gaps_nonneg := by rw [h7]; exact h.gaps_nonneg
    sizes_nonneg := by rw [h8]; exact h.sizes_nonneg
    queue_sizes := by rw [h2]; exact h.queue_sizes
    ev_sizes := by rw [h1]; exact h.ev_sizes }

theorem ps_start_service_current_time (s : PSState) :
    (ps_start_service s).current_time = s.current_time := by
  simp only [ps_start_service]
  rcases hq : s.packet_queue with _ | ⟨p, rest⟩ <;> simp only [hq]

theorem ps_ord_start_service (s : PSState) (h : PSOrd s) :
    PSOrd (ps_start_service s) := by
  simp only [ps_start_service]
  rcases hq : s.packet_queue with _ | ⟨p, rest⟩ <;> simp only [hq]
  · exact h
  · have hp : 0 ≤ p.size :=
      h.queue_sizes p (by rw [hq]; exact List.mem_cons_self _ _)
    have hsvc : 0 ≤ p.size / s.link_rate := div_nonneg hp (le_of_lt h.link_pos)
    refine
      { sorted := pairwise_insertByTime _ _ _ h.sorted
        lower := ?_
        lam_pos := h.lam_pos
        link_pos := h.link_pos
        msz_nonneg := h.msz_nonneg
        gaps_nonneg := h.gaps_nonneg
        sizes_nonneg := h.sizes_nonneg
        queue_sizes := fun q hqq =>
          h.queue_sizes q (by rw [hq]; exact List.mem_cons_of_mem p hqq)
        ev_sizes := ?_ }
    · intro e he
      rcases (mem_insertByTime PSEvent.time _ s.event_queue e).mp he with rfl | hm
      · dsimp only
        linarith
      · exact h.lower e hm
    · intro e he
      rcases (mem_insertByTime PSEvent.time _ s.event_queue e).mp he with rfl | hm
      · exact hp
      · exact h.ev_sizes e hm

theorem ps_ord_sched_arrival (X : PSState) (hX : PSOrd X) :
    PSOrd { X with
            gi := X.gi + 1,
            si := X.si + 1,
            event_queue := insertByTime PSEvent.time
              { time := X.current_time + 1 / X.arrival_rate * X.gaps X.gi,
                etype := PSEType.packetArrival,
                packet := { arrival_time :=
                              X.current_time + 1 / X.arrival_rate * X.gaps X.gi,
                            size := X.mean_packet_size * X.sizes X.si,
                            start_service_time := none,
                            departure_time := none } }
              X.event_queue } := by
  have hg : 0 ≤ 1 / X.arrival_rate * X.gaps X.gi :=
    mul_nonneg (one_div_nonneg.mpr (le_of_lt hX.lam_pos)) (hX.gaps_nonneg X.gi)
  refine
    { sorted := pairwise_insertByTime _ _ _ hX.sorted
      lower := ?_
      lam_pos := hX.lam_pos
      link_pos := hX.link_pos
      msz_nonneg := hX.msz_nonneg
      gaps_nonneg := hX.gaps_nonneg
      sizes_nonneg := hX.sizes_nonneg
      queue_sizes := hX.queue_sizes
      ev_sizes := ?_ }
  · intro e he
    rcases (mem_insertByTime PSEvent.time _ X.event_queue e).mp he with rfl | hm
    · dsimp only
      linarith
    · exact hX.lower e hm
  · intro e he
    rcases (mem_insertByTime PSEvent.time _ X.event_queue e).mp he with rfl | hm
    · exact mul_nonneg hX.msz_nonneg (hX.sizes_nonneg X.si)
    · exact hX.ev_sizes e hm

theorem ps_ord_arrival (s : PSState) (pkt : PSPacket) (h : PSOrd s)
    (hp : 0 ≤ pkt.size) : PSOrd (ps_packet_arrival_event s pkt) := by
  have h1 : PSOrd { s with
                    packets_arrived := s.packets_arrived + 1,
                    packet_queue := s.packet_queue ++ [pkt] } :=
    { sorted := h.sorted
      lower := h.lower
      lam_pos := h.lam_pos
      link_pos := h.link_pos
      msz_nonneg := h.msz_nonneg
      gaps_nonneg := h.gaps_nonneg
      sizes_nonneg := h.sizes_nonneg
      queue_sizes := by
        intro q hqq
        rcases List.mem_append.mp hqq with hm | hm
        · exact h.queue_sizes q hm
        · rcases List.mem_singleton.mp hm with rfl
          exact hp
      ev_sizes := h.ev_sizes }
  have h2 : PSOrd { s with
                    packets_arrived := s.packets_arrived + 1,
                    packet_queue := s.packet_queue ++ [pkt],
                    queue_length_history := s.queue_length_history ++
                      [(s.packet_queue ++ [pkt]).length],
                    time_history := s.time_history ++ [s.current_time] } :=
    ps_ord_copy _ _ h1 rfl rfl rfl rfl rfl rfl rfl rfl
  simp only [ps_packet_arrival_event]
  split_ifs with hb hd hd
  · exact ps_ord_sched_arrival _ h2
  · exact h2
  · exact ps_ord_sched_arrival _ (ps_ord_start_service _ h2)
  · exact ps_ord_start_service _ h2

theorem ps_ord_departure (s : PSState) (pkt : PSPacket) (h : PSOrd s) :
    PSOrd (ps_packet_departure_event s pkt) := by
  simp only [ps_packet_departure_event]
  split_ifs with hne
  · exact ps_ord_start_service _
      (ps_ord_copy _ _ h rfl rfl rfl rfl rfl rfl rfl rfl)
  · exact ps_ord_copy _ _ h rfl rfl rfl rfl rfl rfl rfl rfl

theorem ps_ord_dispatch (e : PSEvent) (s : PSState) (h : PSOrd s)
    (hp : 0 ≤ e.packet.size) : PSOrd (ps_dispatch e s) := by
  rcases e with ⟨t, ety, pkt⟩
  rcases ety
  · exact ps_ord_arrival _ _ h hp
  · exact ps_ord_departure _ _ h

theorem ps_arrival_current_time (s : PSState) (pkt : PSPacket) :
    (ps_packet_arrival_event s pkt).current_time = s.current_time := by
  simp only [ps_packet_arrival_event]
  split_ifs <;>
    first
      | rfl
      | exact ps_start_service_current_time _

theorem ps_departure_current_time (s : PSState) (pkt : PSPacket) :
    (ps_packet_departure_event s pkt).current_time = s.current_time := by
  simp only [ps_packet_departure_event]
  split_ifs <;>
    first
      | rfl
      | exact ps_start_service_current_time _

theorem ps_dispatch_current_time (e : PSEvent) (s : PSState) :
    (ps_dispatch e s).current_time = s.current_time := by
  rcases e with ⟨t, ety, pkt⟩
  rcases ety
  · exact ps_arrival_current_time _ _
  · exact ps_departure_current_time _ _

theorem ps_ord_step (s : PSState) (e : PSEvent) (rest : List PSEvent)
    (hq : s.event_queue = e :: rest) (h : PSOrd s) :
    PSOrd { s with event_queue := rest, current_time := e.time } := by
  have hsorted := hq ▸ h.sorted
  rw [List.pairwise_cons] at hsorted
  have hev := hq ▸ h.ev_sizes
  exact
    { sorted := hsorted.2
      lower := fun e' he' => hsorted.1 e' he'
      lam_pos := h.lam_pos
      link_pos := h.link_pos
      msz_nonneg := h.msz_nonneg
      gaps_nonneg := h.gaps_nonneg
      sizes_nonneg := h.sizes_nonneg
      queue_sizes := h.queue_sizes
      ev_sizes := fun e' he' => hev e' (List.mem_cons_of_mem _ he') }

theorem ps_run_chain (fuel : ℕ) (s : PSState) (h : PSOrd s) :
    List.Chain' (· ≤ ·) (ps_run fuel s).2.2 ∧
    ∀ x ∈ (ps_run fuel s).2.2, s.current_time ≤ x := by
  induction fuel generalizing s with
  | zero =>
    exact ⟨List.chain'_nil, by intro x hx; simp [ps_run] at hx⟩
  | succ n ih =>
    rw [ps_run]
    split_ifs with hrl
    · rcases hq : s.event_queue with _ | ⟨e, rest⟩
      · exact ⟨List.chain'_nil, by intro x hx; simp at hx⟩
      · dsimp only
        have hcur : s.current_time ≤ e.time :=
          h.lower e (by rw [hq]; exact List.mem_cons_self _ _)
        have hp : 0 ≤ e.packet.size :=
          h.ev_sizes e (by rw [hq]; exact List.mem_cons_self _ _)
        have hd : PSOrd (ps_dispatch e
            { s with event_queue := rest, current_time := e.time }) :=
          ps_ord_dispatch _ _ (ps_ord_step s e rest hq h) hp
        have hdc := ps_dispatch_current_time e
          { s with event_queue := rest, current_time := e.time }
        obtain ⟨hch, hlo⟩ := ih _ hd
        rw [hdc] at hlo
        constructor
        · rw [List.chain'_cons']
          exact ⟨fun y hy => hlo y (List.mem_of_mem_head? hy), hch⟩
        · intro x hx
          rcases List.mem_cons.mp hx with rfl | hx
          · exact hcur
          · exact le_trans hcur (hlo x hx)
    · exact ⟨List.chain'_nil, by intro x hx; simp at hx⟩

theorem ps_ord_seed (lam msz C : ℚ) (L : ℕ) (gaps sizes : ℕ → ℚ)
    (hlam : 0 < lam) (hC : 0 < C) (hmsz : 0 ≤ msz)
    (hgaps : ∀ i, 0 ≤ gaps i) (hsizes : ∀ i, 0 ≤ sizes i) :
    PSOrd (ps_seed (ps_state0 lam msz C L gaps sizes)) := by
  simp only [ps_seed, ps_state0, insertByTime]
  exact
    { sorted := List.pairwise_singleton _ _
      lower := by
        intro e he
        rcases List.mem_singleton.mp he with rfl
        exact mul_nonneg (one_div_nonneg.mpr (le_of_lt hlam)) (hgaps 0)
      lam_pos := hlam
      link_pos := hC
      msz_nonneg := hmsz
      gaps_nonneg := hgaps
      sizes_nonneg := hsizes
      queue_sizes := fun p hp => (List.not_mem_nil p hp).elim
      ev_sizes := by
        intro e he
        rcases List.mem_singleton.mp he with rfl
        exact mul_nonneg hmsz (hsizes 0) }

/-- C7: every model is deterministic — two runs built from equal
parameters and the same (seeded) draw streams produce identical result
records — and, with positive rates and nonnegative draws, every model
dispatches its events in non-decreasing time order (the dispatch trace
is a ≤-chain).  Ties are resolved by the queue's deterministic stable
insertion, identically in both runs. -/
theorem c7_determinism_and_dispatch_order :
    (∀ (fuel : ℕ) (B B' : ℤ) (R R' lam lam' T T' : ℚ) (rng rng' : ℕ → ℚ),
      B = B' → R = R' → lam = lam' → T = T' → rng = rng' →
      lb_get_results (lb_run fuel (lb_seed (lb_state0 B R lam T rng))).1 =
      lb_get_results (lb_run fuel (lb_seed (lb_state0 B' R' lam' T' rng'))).1) ∧
    (∀ (fuel : ℕ) (R R' lam lam' : ℚ) (szs szs' : List ℚ) (B B' : ℤ)
      (cp cp' T T' : ℚ) (rng rng' draws draws' : ℕ → ℚ),
      R = R' → lam = lam' → szs = szs' → B = B' → cp = cp' → T = T' →
      rng = rng' → draws = draws' →
      bb_get_results
        (bb_run fuel (bb_seed (bb_state0 R lam szs B cp T rng draws))).1 =
      bb_get_results
        (bb_run fuel (bb_seed (bb_state0 R' lam' szs' B' cp' T' rng' draws'))).1) ∧
    (∀ (fuel : ℕ) (Bt Bt' Bd Bd' : ℤ) (tr tr' lam lam' T T' : ℚ)
      (rng rng' : ℕ → ℚ),
      Bt = Bt' → Bd = Bd' → tr = tr' → lam = lam' → T = T' → rng = rng' →
      tb_get_results
        (tb_finish (tb_run fuel (tb_seed (tb_state0 Bt Bd tr lam T rng))).1) =
      tb_get_results
        (tb_finish (tb_run fuel (tb_seed (tb_state0 Bt' Bd' tr' lam' T' rng'))).1)) ∧
    (∀ (fuel : ℕ) (Bt Bt' : ℚ) (Bd Bd' : ℤ) (tr tr' lam lam' : ℚ)
      (szs szs' : List ℚ) (T T' : ℚ) (rng rng' draws draws' : ℕ → ℚ),
      Bt = Bt' → Bd = Bd' → tr = tr' → lam = lam' → szs = szs' → T = T' →
      rng = rng' → draws = draws' →
      btb_get_results
        (btb_finish
          (btb_run fuel (btb_seed (btb_state0 Bt Bd tr lam szs T rng draws))).1) =
      btb_get_results
        (btb_finish
          (btb_run fuel
            (btb_seed (btb_state0 Bt' Bd' tr' lam' szs' T' rng' draws'))).1)) ∧
    (∀ (fuel : ℕ) (lam lam' msz msz' C C' : ℚ) (L L' : ℕ)
      (gaps gaps' sizes sizes' : ℕ → ℚ),
      lam = lam' → msz = msz' → C = C' → L = L' → gaps = gaps' →
      sizes = sizes' →
      ps_get_results (ps_run fuel (ps_seed (ps_state0 lam msz C L gaps sizes))).1 =
      ps_get_results
        (ps_run fuel (ps_seed (ps_state0 lam' msz' C' L' gaps' sizes'))).1) ∧
    (∀ (fuel : ℕ) (B : ℤ) (R lam T : ℚ) (rng : ℕ → ℚ),
      0 < R → 0 < lam → (∀ i, 0 ≤ rng i) →
      List.Chain' (· ≤ ·) (lb_run fuel (lb_seed (lb_state0 B R lam T rng))).2) ∧
    (∀ (fuel : ℕ) (R lam : ℚ) (szs : List ℚ) (B : ℤ) (cp T : ℚ)
      (rng draws : ℕ → ℚ),
      0 ≤ cp → 0 < lam → (∀ i, 0 ≤ rng i) →
      List.Chain' (· ≤ ·)
        (bb_run fuel (bb_seed (bb_state0 R lam szs B cp T rng draws))).2) ∧
    (∀ (fuel : ℕ) (Bt Bd : ℤ) (tr lam T : ℚ) (rng : ℕ → ℚ),
      0 ≤ tr → 0 < lam → (∀ i, 0 ≤ rng i) →
      List.Chain' (· ≤ ·)
        (tb_run fuel (tb_seed (tb_state0 Bt Bd tr lam T rng))).2) ∧
    (∀ (fuel : ℕ) (Bt : ℚ) (Bd : ℤ) (tr lam : ℚ) (szs : List ℚ) (T : ℚ)
      (rng draws : ℕ → ℚ),
      0 ≤ Bt → 0 ≤ tr → 0 < lam → (∀ i, 0 ≤ rng i) → (∀ i, 0 ≤ draws i) →
      List.Chain' (· ≤ ·)
        (btb_run fuel (btb_seed (btb_state0 Bt Bd tr lam szs T rng draws))).2) ∧
    (∀ (fuel : ℕ) (lam msz C : ℚ) (L : ℕ) (gaps sizes : ℕ → ℚ),
      0 < lam → 0 < C → 0 ≤ msz → (∀ i, 0 ≤ gaps i) → (∀ i, 0 ≤ sizes i) →
      List.Chain' (· ≤ ·)
        (ps_run fuel (ps_seed (ps_state0 lam msz C L gaps sizes))).2.2) := by
  refine ⟨?_, ?_, ?_, ?_, ?_, ?_, ?_, ?_, ?_, ?_⟩
  · intro fuel B B' R R' lam lam' T T' rng rng' h1 h2 h3 h4 h5
    subst h1; subst h2; subst h3; subst h4; subst h5; rfl
  · intro fuel R R' lam lam' szs szs' B B' cp cp' T T' rng rng' draws draws'
      h1 h2 h3 h4 h5 h6 h7 h8
    subst h1; subst h2; subst h3; subst h4; subst h5; subst h6; subst h7
    subst h8; rfl
  · intro fuel Bt Bt' Bd Bd' tr tr' lam lam' T T' rng rng' h1 h2 h3 h4 h5 h6
    subst h1; subst h2; subst h3; subst h4; subst h5; subst h6; rfl
  · intro fuel Bt Bt' Bd Bd' tr tr' lam lam' szs szs' T T' rng rng'
      draws draws' h1 h2 h3 h4 h5 h6 h7 h8
    subst h1; subst h2; subst h3; subst h4; subst h5; subst h6; subst h7
    subst h8; rfl
  · intro fuel lam lam' msz msz' C C' L L' gaps gaps' sizes sizes'
      h1 h2 h3 h4 h5 h6
    subst h1; subst h2; subst h3; subst h4; subst h5; subst h6; rfl
  · intro fuel B R lam T rng hR hlam hrng
    exact (lb_run_chain fuel _ (lb_ord_seed B R lam T rng hR hlam hrng)).1
  · intro fuel R lam szs B cp T rng draws hcp hlam hrng
    exact (bb_run_chain fuel _
      (bb_ord_seed R lam szs B cp T rng draws hcp hlam hrng)).1
  · intro fuel Bt Bd tr lam T rng htr hlam hrng
    exact (tb_run_chain fuel _ (tb_ord_seed Bt Bd tr lam T rng htr hlam hrng)).1
  · intro fuel Bt Bd tr lam szs T rng draws hBt htr hlam hrng hdraws
    exact (btb_run_chain Bt fuel _
      (btb_seed_inv Bt Bd tr lam szs T rng draws hBt htr hlam hrng hdraws)).1
  · intro fuel lam msz C L gaps sizes hlam hC hmsz hgaps hsizes
    exact (ps_run_chain fuel _
      (ps_ord_seed lam msz C L gaps sizes hlam hC hmsz hgaps hsizes)).1

/-- Witness for C7 at concrete parameters: determinism of two equally
parameterized part 1 runs and orderedness of a concrete dispatch
trace. -/
theorem c7_determinism_and_dispatch_order_witness :
    lb_get_results (lb_run 2 (lb_seed (lb_state0 1 1 1 1 (fun _ => 1)))).1 =
      lb_get_results (lb_run 2 (lb_seed (lb_state0 1 1 1 1 (fun _ => 1)))).1 ∧
    List.Chain' (· ≤ ·)
      (lb_run 2 (lb_seed (lb_state0 1 1 1 1 (fun _ => 1)))).2 :=
  ⟨c7_determinism_and_dispatch_order.1 2 1 1 1 1 1 1 1 1
      (fun _ => 1) (fun _ => 1) rfl rfl rfl rfl rfl,
    c7_determinism_and_dispatch_order.2.2.2.2.2.1 2 1 1 1 1 (fun _ => 1)
      (by norm_num) (by norm_num) (fun i => by norm_num)⟩

/-! ### C9: the packet-switch run loop terminates at run_length departures -/

theorem insertByTime_perm {α : Type} (t : α → ℚ) (e : α) (l : List α) :
    (insertByTime t e l).Perm (e :: l) := by
  induction l with
  | nil => exact List.Perm.refl _
  | cons x xs ih =>
    simp only [insertByTime]
    split_ifs
    · exact ((ih.cons x).trans (List.Perm.swap e x xs))
    · exact List.Perm.refl _

theorem filter_insertByTime_length {α : Type} (t : α → ℚ) (p : α → Bool)
    (e : α) (l : List α) :
    ((insertByTime t e l).filter p).length = ((e :: l).filter p).length :=
  ((insertByTime_perm t e l).filter p).length_eq

theorem ps_arr_or_dep (e : PSEvent) :
    ps_isArr e = true ∨ ps_isDep e = true := by
  rcases e with ⟨t, ety, pkt⟩
  rcases ety
  · exact Or.inl rfl
  · exact Or.inr rfl

theorem ps_not_arr_and_dep (e : PSEvent) (h1 : ps_isArr e = true)
    (h2 : ps_isDep e = true) : False := by
  rcases e with ⟨t, ety, pkt⟩
  rcases ety
  · simp [ps_isDep] at h2
  · simp [ps_isArr] at h1

theorem ps_arrival_time_mono (lam : ℚ) (gaps : ℕ → ℚ) (hlam : 0 < lam)
    (hgaps : ∀ i, 0 ≤ gaps i) {k n : ℕ} (h : k ≤ n) :
    ps_arrival_time lam gaps k ≤ ps_arrival_time lam gaps n := by
  induction n with
  | zero =>
    rcases Nat.le_zero.mp h with rfl
    exact le_refl _
  | succ m ih =>
    rcases eq_or_lt_of_le h with rfl | hlt
    · exact le_refl _
    · have hx : 0 ≤ 1 / lam * gaps (m + 1) :=
        mul_nonneg (one_div_nonneg.mpr (le_of_lt hlam)) (hgaps (m + 1))
      have hle := ih (Nat.lt_succ_iff.mp hlt)
      calc ps_arrival_time lam gaps k ≤ ps_arrival_time lam gaps m := hle
        _ ≤ ps_arrival_time lam gaps m + 1 / lam * gaps (m + 1) := by linarith
        _ = ps_arrival_time lam gaps (m + 1) := rfl

theorem ps_arrival_time_lt_reflect (lam : ℚ) (gaps : ℕ → ℚ) (hlam : 0 < lam)
    (hgaps : ∀ i, 0 ≤ gaps i) {k n : ℕ}
    (h : ps_arrival_time lam gaps k < ps_arrival_time lam gaps n) : k < n := by
  by_contra hc
  exact absurd (ps_arrival_time_mono lam gaps hlam hgaps (not_lt.mp hc))
    (not_le.mpr h)

theorem ps_svc_sum_nonneg (msz c : ℚ) (sizes : ℕ → ℚ) (hmsz : 0 ≤ msz)
    (hc : 0 < c) (hsizes : ∀ i, 0 ≤ sizes i) (k : ℕ) :
    0 ≤ ps_svc_sum msz c sizes k := by
  induction k with
  | zero => exact div_nonneg (mul_nonneg hmsz (hsizes 0)) (le_of_lt hc)
  | succ m ih =>
    have : 0 ≤ msz * sizes (m + 1) / c :=
      div_nonneg (mul_nonneg hmsz (hsizes (m + 1))) (le_of_lt hc)
    simp only [ps_svc_sum]
    linarith

theorem ps_svc_sum_mono (msz c : ℚ) (sizes : ℕ → ℚ) (hmsz : 0 ≤ msz)
    (hc : 0 < c) (hsizes : ∀ i, 0 ≤ sizes i) {k n : ℕ} (h : k ≤ n) :
    ps_svc_sum msz c sizes k ≤ ps_svc_sum msz c sizes n := by
  induction n with
  | zero =>
    rcases Nat.le_zero.mp h with rfl
    exact le_refl _
  | succ m ih =>
    have hx : 0 ≤ msz * sizes (m + 1) / c :=
      div_nonneg (mul_nonneg hmsz (hsizes (m + 1))) (le_of_lt hc)
    rcases eq_or_lt_of_le h with rfl | hlt
    · exact le_refl _
    · have hle := ih (Nat.lt_succ_iff.mp hlt)
      calc ps_svc_sum msz c sizes k ≤ ps_svc_sum msz c sizes m := hle
        _ ≤ ps_svc_sum msz c sizes m + msz * sizes (m + 1) / c := by linarith
        _ = ps_svc_sum msz c sizes (m + 1) := rfl

theorem ps_start_service_fields (s : PSState) :
    (ps_start_service s).arrival_rate = s.arrival_rate ∧
    (ps_start_service s).mean_packet_size = s.mean_packet_size ∧
    (ps_start_service s).link_rate = s.link_rate ∧
    (ps_start_service s).gaps = s.gaps ∧
    (ps_start_service s).sizes = s.sizes ∧
    (ps_start_service s).run_length = s.run_length ∧
    (ps_start_service s).packets_departed = s.packets_departed ∧
    (ps_start_service s).packets_arrived = s.packets_arrived ∧
    (ps_start_service s).gi = s.gi ∧
    (ps_start_service s).si = s.si := by
  simp only [ps_start_service]
  rcases hq : s.packet_queue with _ | ⟨p, rest⟩ <;> simp [hq]

theorem ps_arrival_fields (s : PSState) (pkt : PSPacket) :
    (ps_packet_arrival_event s pkt).arrival_rate = s.arrival_rate ∧
    (ps_packet_arrival_event s pkt).mean_packet_size = s.mean_packet_size ∧
    (ps_packet_arrival_event s pkt).link_rate = s.link_rate ∧
    (ps_packet_arrival_event s pkt).gaps = s.gaps ∧
    (ps_packet_arrival_event s pkt).sizes = s.sizes ∧
    (ps_packet_arrival_event s pkt).run_length = s.run_length ∧
    (ps_packet_arrival_event s pkt).packets_departed = s.packets_departed ∧
    (ps_packet_arrival_event s pkt).packets_arrived = s.packets_arrived + 1 := by
  simp only [ps_packet_arrival_event]
  split_ifs <;>
    first
      | exact ⟨rfl, rfl, rfl, rfl, rfl, rfl, rfl, rfl⟩
      | (refine ⟨?_, ?_, ?_, ?_, ?_, ?_, ?_, ?_⟩ <;>
          first
            | rfl
            | (dsimp only
               rcases ps_start_service_fields { s with
                  packets_arrived := s.packets_arrived + 1,
                  packet_queue := s.packet_queue ++ [pkt],
                  queue_length_history := s.queue_length_history ++
                    [(s.packet_queue ++ [pkt]).length],
                  time_history := s.time_history ++ [s.current_time] } with
                ⟨f1, f2, f3, f4, f5, f6, f7, f8, f9, f10⟩
               first
                 | exact f1 | exact f2 | exact f3 | exact f4 | exact f5
                 | exact f6 | exact f7 | exact f8))

theorem ps_departure_fields (s : PSState) (pkt : PSPacket) :
    (ps_packet_departure_event s pkt).arrival_rate = s.arrival_rate ∧
    (ps_packet_departure_event s pkt).mean_packet_size = s.mean_packet_size ∧
    (ps_packet_departure_event s pkt).link_rate = s.link_rate ∧
    (ps_packet_departure_event s pkt).gaps = s.gaps ∧
    (ps_packet_departure_event s pkt).sizes = s.sizes ∧
    (ps_packet_departure_event s pkt).run_length = s.run_length ∧
    (ps_packet_departure_event s pkt).packets_departed
      = s.packets_departed + 1 ∧
    (ps_packet_departure_event s pkt).packets_arrived = s.packets_arrived := by
  simp only [ps_packet_departure_event]
  split_ifs <;>
    first
      | exact ⟨rfl, rfl, rfl, rfl, rfl, rfl, rfl, rfl⟩
      | (refine ⟨?_, ?_, ?_, ?_, ?_, ?_, ?_, ?_⟩ <;>
          first
            | rfl
            | (dsimp only
               rcases ps_start_service_fields { s with
                  packets_departed := s.packets_departed + 1,
                  total_delay := s.total_delay +
                    (s.current_time - pkt.arrival_time),
                  total_queue_delay := s.total_queue_delay +
                    (pkt.start_service_time.getD 0 - pkt.arrival_time),
                  total_service_time := s.total_service_time +
                    (s.current_time - pkt.start_service_time.getD 0),
                  server_busy := false,
                  packet_in_service := none } with
                ⟨f1, f2, f3, f4, f5, f6, f7, f8, f9, f10⟩
               first
                 | exact f1 | exact f2 | exact f3 | exact f4 | exact f5
                 | exact f6 | exact f7 | exact f8))

theorem ps_svc_le_sum (msz c : ℚ) (sizes : ℕ → ℚ) (hmsz : 0 ≤ msz)
    (hc : 0 < c) (hsizes : ∀ i, 0 ≤ sizes i) (k : ℕ) :
    msz * sizes k / c ≤ ps_svc_sum msz c sizes k := by
  rcases k with _ | m
  · exact le_refl _
  · have := ps_svc_sum_nonneg msz c sizes hmsz hc hsizes m
    simp only [ps_svc_sum]
    linarith

theorem ps_isDep_false_of_isArr (e : PSEvent) (h : ps_isArr e = true) :
    ps_isDep e = false := by
  rcases e with ⟨t, ety, pkt⟩
  rcases ety
  · rfl
  · simp [ps_isArr] at h

theorem ps_isArr_false_of_isDep (e : PSEvent) (h : ps_isDep e = true) :
    ps_isArr e = false := by
  rcases e with ⟨t, ety, pkt⟩
  rcases ety
  · simp [ps_isDep] at h
  · rfl

theorem ps_start_service_eq (s : PSState) (p : PSPacket)
    (rest : List PSPacket) (hq : s.packet_queue = p :: rest) :
    ps_start_service s =
      { s with
        packet_queue := rest,
        server_busy := true,
        packet_in_service :=
          some { p with start_service_time := some s.current_time },
        event_queue := insertByTime PSEvent.time
          { time := s.current_time +
              ({ p with start_service_time := some s.current_time } :
                PSPacket).size / s.link_rate,
            etype := PSEType.packetDeparture,
            packet := { p with start_service_time := some s.current_time } }
          s.event_queue,
        queue_length_history := s.queue_length_history ++ [rest.length],
        time_history := s.time_history ++ [s.current_time] } := by
  simp only [ps_start_service, hq]

theorem filter_length_insertByTime_pos (p : PSEvent → Bool) (e : PSEvent)
    (l : List PSEvent) (h : p e = true) :
    ((insertByTime PSEvent.time e l).filter p).length =
      (l.filter p).length + 1 := by
  rw [filter_insertByTime_length, List.filter_cons, if_pos h]
  rfl

theorem filter_length_insertByTime_neg (p : PSEvent → Bool) (e : PSEvent)
    (l : List PSEvent) (h : p e = false) :
    ((insertByTime PSEvent.time e l).filter p).length =
      (l.filter p).length := by
  rw [filter_insertByTime_length, List.filter_cons, h]
  simp

theorem filter_insertByTime_eq_nil (p : PSEvent → Bool) (e : PSEvent)
    (l : List PSEvent) (h : p e = false) (h2 : l.filter p = []) :
    (insertByTime PSEvent.time e l).filter p = [] := by
  have hl := filter_length_insertByTime_neg p e l h
  rw [h2] at hl
  exact List.length_eq_zero.mp hl

theorem ps_inv_sched (X : PSState) (a : ℕ)
    (hord : PSOrd X)
    (harr : X.packets_arrived = a + 1)
    (hcur : X.current_time = ps_arrival_time X.arrival_rate X.gaps a)
    (hgi : X.gi = a + 1)
    (hsi : X.si = a + 1)
    (hlt : X.packets_departed < X.run_length)
    (hsub : X.packets_departed + psBusyBit X ≤ X.packets_arrived)
    (hdc : (X.event_queue.filter ps_isDep).length = psBusyBit X)
    (hac : X.event_queue.filter ps_isArr = [])
    (hie : X.server_busy = false → X.packet_queue = [])
    (hqs : X.packet_queue =
      (List.range' (X.packets_departed + psBusyBit X)
        (X.packets_arrived - (X.packets_departed + psBusyBit X))).map
        (ps_pkt X.arrival_rate X.mean_packet_size X.gaps X.sizes))
    (hdp : ∀ e ∈ X.event_queue, ps_isDep e = true →
      e.time ≤ ps_arrival_time X.arrival_rate X.gaps X.packets_departed +
        ps_svc_sum X.mean_packet_size X.link_rate X.sizes
          X.packets_departed) :
    PSInv { X with
            gi := X.gi + 1,
            si := X.si + 1,
            event_queue := insertByTime PSEvent.time
              { time := X.current_time + 1 / X.arrival_rate * X.gaps X.gi,
                etype := PSEType.packetArrival,
                packet := { arrival_time :=
                              X.current_time + 1 / X.arrival_rate * X.gaps X.gi,
                            size := X.mean_packet_size * X.sizes X.si,
                            start_service_time := none,
                            departure_time := none } }
              X.event_queue } := by
  refine
    { ord := ps_ord_sched_arrival X hord
      dep_le := le_of_lt hlt
      sub_le := ?_
      dep_count := ?_
      arr_count := ?_
      arr_pin := ?_
      arr_exists := ?_
      idx_gi := ?_
      idx_si := ?_
      idle_empty := ?_
      queue_shape := ?_
      dep_pin := ?_ }
  · simp only [psBusyBit] at hsub ⊢
    dsimp only
    exact hsub
  · dsimp only
    rw [filter_length_insertByTime_neg _ _ _ rfl, hdc]
    simp only [psBusyBit]
  · dsimp only
    rw [filter_length_insertByTime_pos _ _ _ rfl, hac]
    simp
  · intro e he hearr
    dsimp only at he ⊢
    rcases (mem_insertByTime PSEvent.time _ _ e).mp he with rfl | hm
    · constructor
      · dsimp only
        rw [hcur, hgi, harr]
        simp only [ps_arrival_time]
      · dsimp only
        rw [hcur, hgi, hsi, harr]
        simp only [ps_pkt, ps_arrival_time]
    · exfalso
      have hx := List.mem_filter.mpr ⟨hm, hearr⟩
      rw [hac] at hx
      simp at hx
  · intro _
    exact ⟨_, (mem_insertByTime PSEvent.time _ _ _).mpr (Or.inl rfl), rfl⟩
  · intro _
    dsimp only
    omega
  · intro _
    dsimp only
    omega
  · intro h
    dsimp only at h ⊢
    exact hie h
  · simp only [psBusyBit] at hqs ⊢
    dsimp only
    exact hqs
  · intro e he hed
    dsimp only at he ⊢
    rcases (mem_insertByTime PSEvent.time _ _ e).mp he with rfl | hm
    · exact Bool.noConfusion hed
    · exact hdp e hm hed

theorem ps_inv_arrival_case (u : PSState) (pkt : PSPacket)
    (hord : PSOrd u)
    (hlt : u.packets_departed < u.run_length)
    (hsub : u.packets_departed + psBusyBit u ≤ u.packets_arrived)
    (hdc : (u.event_queue.filter ps_isDep).length = psBusyBit u)
    (hac : u.event_queue.filter ps_isArr = [])
    (hcur : u.current_time =
      ps_arrival_time u.arrival_rate u.gaps u.packets_arrived)
    (hpkt : pkt = ps_pkt u.arrival_rate u.mean_packet_size u.gaps u.sizes
      u.packets_arrived)
    (hgi : u.gi = u.packets_arrived + 1)
    (hsi : u.si = u.packets_arrived + 1)
    (hie : u.server_busy = false → u.packet_queue = [])
    (hqs : u.packet_queue =
      (List.range' (u.packets_departed + psBusyBit u)
        (u.packets_arrived - (u.packets_departed + psBusyBit u))).map
        (ps_pkt u.arrival_rate u.mean_packet_size u.gaps u.sizes))
    (hdp : ∀ e ∈ u.event_queue, ps_isDep e = true →
      e.time ≤ ps_arrival_time u.arrival_rate u.gaps u.packets_departed +
        ps_svc_sum u.mean_packet_size u.link_rate u.sizes
          u.packets_departed) :
    PSInv (ps_packet_arrival_event u pkt) := by
  have hszpkt : 0 ≤ pkt.size := by
    rw [hpkt]
    exact mul_nonneg hord.msz_nonneg (hord.sizes_nonneg _)
  have hordmid : PSOrd { u with
      packets_arrived := u.packets_arrived + 1,
      packet_queue := u.packet_queue ++ [pkt],
      queue_length_history := u.queue_length_history ++
        [(u.packet_queue ++ [pkt]).length],
      time_history := u.time_history ++ [u.current_time] } := by
    exact
      { sorted := hord.sorted
        lower := hord.lower
        lam_pos := hord.lam_pos
        link_pos := hord.link_pos
        msz_nonneg := hord.msz_nonneg
        gaps_nonneg := hord.gaps_nonneg
        sizes_nonneg := hord.sizes_nonneg
        queue_sizes := by
          intro q hqq
          rcases List.mem_append.mp hqq with hm | hm
          · exact hord.queue_sizes q hm
          · rcases List.mem_singleton.mp hm with rfl
            exact hszpkt
        ev_sizes := hord.ev_sizes }
  rcases hbusy : u.server_busy with _ | _
  · -- idle server: the arriving packet goes straight into service
    have hqnil : u.packet_queue = [] := hie hbusy
    have haeq : u.packets_arrived = u.packets_departed := by
      rw [hqnil] at hqs
      have h0 := List.range'_eq_nil.mp (List.map_eq_nil_iff.mp hqs.symm)
      have hbb : psBusyBit u = 0 := by simp [psBusyBit, hbusy]
      omega
    have hnb : ¬ u.server_busy = true := by simp [hbusy]
    have hss := ps_start_service_eq
      { u with
        packets_arrived := u.packets_arrived + 1,
        packet_queue := u.packet_queue ++ [pkt],
        queue_length_history := u.queue_length_history ++
          [(u.packet_queue ++ [pkt]).length],
        time_history := u.time_history ++ [u.current_time] } pkt []
      (by show u.packet_queue ++ [pkt] = [pkt]; rw [hqnil, List.nil_append])
    simp only [ps_packet_arrival_event]
    rw [if_neg hnb, hss, if_pos hlt]
    refine ps_inv_sched _ u.packets_arrived
      (hss ▸ ps_ord_start_service _ hordmid)
      rfl hcur hgi hsi hlt ?_ ?_ ?_ ?_ ?_ ?_
    · simp [psBusyBit]
      omega
    · dsimp only
      rw [filter_length_insertByTime_pos _ _ _ rfl, hdc]
      simp [psBusyBit, hbusy]
    · dsimp only
      exact filter_insertByTime_eq_nil _ _ _ rfl hac
    · intro h
      dsimp only at h
      exact Bool.noConfusion h
    · simp only [psBusyBit]
      have h0 : u.packets_arrived + 1 - (u.packets_departed + 1) = 0 := by
        omega
      simp [h0]
    · intro e he hed
      dsimp only at he ⊢
      rcases (mem_insertByTime PSEvent.time _ _ e).mp he with rfl | hm
      · dsimp only
        rw [hcur, hpkt]
        have hle := ps_svc_le_sum u.mean_packet_size u.link_rate u.sizes
          hord.msz_nonneg hord.link_pos hord.sizes_nonneg u.packets_arrived
        rw [← haeq]
        dsimp only [ps_pkt]
        linarith
      · exfalso
        have hnil : u.event_queue.filter ps_isDep = [] := by
          refine List.length_eq_zero.mp ?_
          rw [hdc]
          simp [psBusyBit, hbusy]
        have hx := List.mem_filter.mpr ⟨hm, hed⟩
        rw [hnil] at hx
        simp at hx
  · -- busy server: the packet only joins the queue
    have hbb : psBusyBit u = 1 := by simp [psBusyBit, hbusy]
    have hsub2 : u.packets_departed + 1 ≤ u.packets_arrived := by
      rw [hbb] at hsub
      exact hsub
    simp only [ps_packet_arrival_event]
    rw [if_pos hbusy, if_pos hlt]
    refine ps_inv_sched _ u.packets_arrived hordmid
      rfl hcur hgi hsi hlt ?_ ?_ hac ?_ ?_ ?_
    · simp only [psBusyBit]
      dsimp only
      rw [if_pos hbusy]
      omega
    · simp only [psBusyBit]
      dsimp only
      rw [if_pos hbusy]
      rw [hbb] at hdc
      exact hdc
    · intro h
      dsimp only at h
      rw [hbusy] at h
      exact Bool.noConfusion h
    · simp only [psBusyBit]
      dsimp only
      rw [if_pos hbusy]
      rw [hqs, hbb]
      rw [show u.packets_arrived + 1 - (u.packets_departed + 1) =
          (u.packets_arrived - (u.packets_departed + 1)) + 1 from by omega]
      rw [List.range'_concat, List.map_append]
      rw [hpkt]
      rw [show u.packets_departed + 1 +
          1 * (u.packets_arrived - (u.packets_departed + 1)) =
          u.packets_arrived from by omega]
      simp
    · exact hdp

theorem ps_inv_departure_case (u : PSState) (pkt : PSPacket)
    (hord : PSOrd u)
    (hlt : u.packets_departed < u.run_length)
    (hsub : u.packets_departed + 1 ≤ u.packets_arrived)
    (hdc0 : u.event_queue.filter ps_isDep = [])
    (hacnt : (u.event_queue.filter ps_isArr).length ≤ 1)
    (harp : ∀ e ∈ u.event_queue, ps_isArr e = true →
      e.time = ps_arrival_time u.arrival_rate u.gaps u.packets_arrived ∧
      e.packet = ps_pkt u.arrival_rate u.mean_packet_size u.gaps u.sizes
        u.packets_arrived)
    (harrex : ∃ e ∈ u.event_queue, ps_isArr e = true)
    (hgi : u.gi = u.packets_arrived + 1)
    (hsi : u.si = u.packets_arrived + 1)
    (hqs : u.packet_queue =
      (List.range' (u.packets_departed + 1)
        (u.packets_arrived - (u.packets_departed + 1))).map
        (ps_pkt u.arrival_rate u.mean_packet_size u.gaps u.sizes))
    (hdtime : u.current_time ≤
      ps_arrival_time u.arrival_rate u.gaps u.packets_departed +
        ps_svc_sum u.mean_packet_size u.link_rate u.sizes
          u.packets_departed) :
    PSInv (ps_packet_departure_event u pkt) := by
  simp only [ps_packet_departure_event]
  rcases hm : u.packets_arrived - (u.packets_departed + 1) with _ | m
  · -- nothing left in the buffer: the server goes idle
    have hq0 : u.packet_queue = [] := by rw [hqs, hm]; simp
    rw [if_neg (show ¬(u.packet_queue.length ≠ 0) from by rw [hq0]; simp)]
    refine
      { ord := ps_ord_copy _ _ hord rfl rfl rfl rfl rfl rfl rfl rfl
        dep_le := by dsimp only; omega
        sub_le := by simp [psBusyBit]; omega
        dep_count := by dsimp only; rw [hdc0]; simp [psBusyBit]
        arr_count := hacnt
        arr_pin := harp
        arr_exists := fun _ => harrex
        idx_gi := fun _ => by dsimp only; omega
        idx_si := fun _ => by dsimp only; omega
        idle_empty := fun _ => hq0
        queue_shape := by simp [psBusyBit, hq0, hm]
        dep_pin := ?_ }
    intro e he hed
    exfalso
    have hx := List.mem_filter.mpr ⟨he, hed⟩
    rw [hdc0] at hx
    simp at hx
  · -- the buffer head enters service and a new departure is scheduled
    have hq1 : u.packet_queue =
        ps_pkt u.arrival_rate u.mean_packet_size u.gaps u.sizes
          (u.packets_departed + 1) ::
        (List.range' (u.packets_departed + 1 + 1) m).map
          (ps_pkt u.arrival_rate u.mean_packet_size u.gaps u.sizes) := by
      rw [hqs, hm, List.range'_succ]
      simp
    have hss := ps_start_service_eq
      { u with
        packets_departed := u.packets_departed + 1,
        total_delay := u.total_delay +
          (u.current_time - pkt.arrival_time),
        total_queue_delay := u.total_queue_delay +
          (pkt.start_service_time.getD 0 - pkt.arrival_time),
        total_service_time := u.total_service_time +
          (u.current_time - pkt.start_service_time.getD 0),
        server_busy := false,
        packet_in_service := none }
      (ps_pkt u.arrival_rate u.mean_packet_size u.gaps u.sizes
        (u.packets_departed + 1))
      ((List.range' (u.packets_departed + 1 + 1) m).map
        (ps_pkt u.arrival_rate u.mean_packet_size u.gaps u.sizes))
      (by show u.packet_queue = _; exact hq1)
    rw [if_pos (show u.packet_queue.length ≠ 0 from by rw [hq1]; simp)]
    rw [hss]
    refine
      { ord := ?_
        dep_le := by dsimp only; omega
        sub_le := by simp [psBusyBit]; omega
        dep_count := ?_
        arr_count := ?_
        arr_pin := ?_
        arr_exists := ?_
        idx_gi := fun _ => by dsimp only; omega
        idx_si := fun _ => by dsimp only; omega
        idle_empty := ?_
        queue_shape := ?_
        dep_pin := ?_ }
    · exact hss ▸ ps_ord_start_service _
        (ps_ord_copy _ _ hord rfl rfl rfl rfl rfl rfl rfl rfl)
    · dsimp only
      rw [filter_length_insertByTime_pos _ _ _ rfl, hdc0]
      simp [psBusyBit]
    · dsimp only
      rw [filter_length_insertByTime_neg _ _ _ rfl]
      exact hacnt
    · intro e he hearr
      dsimp only at he ⊢
      rcases (mem_insertByTime PSEvent.time _ _ e).mp he with rfl | hm2
      · exact Bool.noConfusion hearr
      · exact harp e hm2 hearr
    · intro _
      obtain ⟨e0, he0, ha0⟩ := harrex
      exact ⟨e0, (mem_insertByTime PSEvent.time _ _ _).mpr (Or.inr he0), ha0⟩
    · intro h
      dsimp only at h
      exact Bool.noConfusion h
    · simp [psBusyBit,
        show u.packets_arrived - (u.packets_departed + 1 + 1) = m from by
          omega]
    · intro e he hed
      dsimp only at he ⊢
      rcases (mem_insertByTime PSEvent.time _ _ e).mp he with rfl | hm2
      · dsimp only [ps_pkt]
        have h1 : ps_arrival_time u.arrival_rate u.gaps u.packets_departed ≤
            ps_arrival_time u.arrival_rate u.gaps (u.packets_departed + 1) :=
          ps_arrival_time_mono _ _ hord.lam_pos hord.gaps_nonneg
            (Nat.le_succ _)
        have h2 : ps_svc_sum u.mean_packet_size u.link_rate u.sizes
            (u.packets_departed + 1) =
            ps_svc_sum u.mean_packet_size u.link_rate u.sizes
              u.packets_departed +
            u.mean_packet_size * u.sizes (u.packets_departed + 1) /
              u.link_rate := by
          simp only [ps_svc_sum]
        linarith [hdtime]
      · exfalso
        have hx := List.mem_filter.mpr ⟨hm2, hed⟩
        rw [hdc0] at hx
        simp at hx

theorem ps_inv_step (s : PSState) (e : PSEvent) (rest : List PSEvent)
    (hinv : PSInv s)
    (hlt : s.packets_departed < s.run_length)
    (hq : s.event_queue = e :: rest) :
    PSInv (ps_dispatch e
      { s with event_queue := rest, current_time := e.time }) := by
  have hord : PSOrd { s with event_queue := rest, current_time := e.time } :=
    ps_ord_step s e rest hq hinv.ord
  rcases e with ⟨t, ety, p⟩
  rcases ety
  · -- the popped event is the pending arrival
    obtain ⟨htime, hpk⟩ := hinv.arr_pin ⟨t, PSEType.packetArrival, p⟩
      (by rw [hq]; exact List.mem_cons_self _ _) rfl
    have hdc := hinv.dep_count
    rw [hq, List.filter_cons] at hdc
    simp only [ps_isDep, if_neg] at hdc
    have hak := hinv.arr_count
    rw [hq, List.filter_cons] at hak
    simp only [ps_isArr, if_pos, List.length_cons] at hak
    have hac : rest.filter ps_isArr = [] :=
      List.length_eq_zero.mp (by omega)
    have hdp : ∀ e' ∈ rest, ps_isDep e' = true →
        e'.time ≤ ps_arrival_time s.arrival_rate s.gaps s.packets_departed +
          ps_svc_sum s.mean_packet_size s.link_rate s.sizes
            s.packets_departed := by
      intro e' he' hd'
      exact hinv.dep_pin e' (by rw [hq]; exact List.mem_cons_of_mem _ he') hd'
    exact ps_inv_arrival_case _ p hord hlt hinv.sub_le hdc hac htime hpk
      (hinv.idx_gi hlt) (hinv.idx_si hlt) hinv.idle_empty hinv.queue_shape hdp
  · -- the popped event is the pending departure
    have hfd := hinv.dep_count
    rw [hq, List.filter_cons] at hfd
    simp only [ps_isDep, if_pos, List.length_cons] at hfd
    have hble : psBusyBit s ≤ 1 := by
      simp only [psBusyBit]
      split_ifs <;> omega
    have hb1 : psBusyBit s = 1 := by omega
    have hsub2 : s.packets_departed + 1 ≤ s.packets_arrived := by
      have := hinv.sub_le
      omega
    have hdc0 : rest.filter ps_isDep = [] :=
      List.length_eq_zero.mp (by omega)
    have hak := hinv.arr_count
    rw [hq, List.filter_cons] at hak
    simp only [ps_isArr, if_neg] at hak
    have harp : ∀ e' ∈ rest, ps_isArr e' = true →
        e'.time = ps_arrival_time s.arrival_rate s.gaps s.packets_arrived ∧
        e'.packet = ps_pkt s.arrival_rate s.mean_packet_size s.gaps s.sizes
          s.packets_arrived := by
      intro e' he' ha'
      exact hinv.arr_pin e' (by rw [hq]; exact List.mem_cons_of_mem _ he') ha'
    have harrex : ∃ e' ∈ rest, ps_isArr e' = true := by
      obtain ⟨e0, he0, ha0⟩ := hinv.arr_exists hlt
      rw [hq] at he0
      rcases List.mem_cons.mp he0 with rfl | hm0
      · exact absurd ha0 (by simp [ps_isArr])
      · exact ⟨e0, hm0, ha0⟩
    have hqs0 := hinv.queue_shape
    rw [hb1] at hqs0
    have hdtime := hinv.dep_pin ⟨t, PSEType.packetDeparture, p⟩
      (by rw [hq]; exact List.mem_cons_self _ _) rfl
    exact ps_inv_departure_case _ p hord hlt hsub2 hdc0 hak harp harrex
      (hinv.idx_gi hlt) (hinv.idx_si hlt) hqs0 hdtime

theorem ps_inv_seed (lam msz C : ℚ) (L : ℕ) (gaps sizes : ℕ → ℚ)
    (hlam : 0 < lam) (hC : 0 < C) (hmsz : 0 ≤ msz)
    (hgaps : ∀ i, 0 ≤ gaps i) (hsizes : ∀ i, 0 ≤ sizes i) :
    PSInv (ps_seed (ps_state0 lam msz C L gaps sizes)) := by
  refine
    { ord := ps_ord_seed lam msz C L gaps sizes hlam hC hmsz hgaps hsizes
      dep_le := Nat.zero_le _
      sub_le := by simp [ps_seed, ps_state0, psBusyBit]
      dep_count := by simp [ps_seed, ps_state0, psBusyBit, insertByTime,
        ps_isDep]
      arr_count := by simp [ps_seed, ps_state0, insertByTime, ps_isArr]
      arr_pin := ?_
      arr_exists := ?_
      idx_gi := fun _ => rfl
      idx_si := fun _ => rfl
      idle_empty := fun _ => rfl
      queue_shape := by simp [ps_seed, ps_state0, psBusyBit]
      dep_pin := ?_ }
  · intro e he _
    simp only [ps_seed, ps_state0, insertByTime] at he
    rcases List.mem_singleton.mp he with rfl
    exact ⟨rfl, rfl⟩
  · intro _
    simp [ps_seed, ps_state0, insertByTime, ps_isArr]
  · intro e he hed
    simp only [ps_seed, ps_state0, insertByTime] at he
    rcases List.mem_singleton.mp he with rfl
    exact absurd hed (by simp [ps_isDep])

theorem ps_run_inv_exit (fuel : ℕ) (s : PSState) (hinv : PSInv s)
    (hdone : (ps_run fuel s).2.1 = true) :
    (ps_run fuel s).1.packets_departed = (ps_run fuel s).1.run_length := by
  induction fuel generalizing s with
  | zero =>
    rw [ps_run] at hdone
    exact Bool.noConfusion hdone
  | succ n ih =>
    rw [ps_run] at hdone ⊢
    split_ifs at hdone ⊢ with hrl
    · rcases hqe : s.event_queue with _ | ⟨e, rest⟩
      · exfalso
        obtain ⟨e0, he0, _⟩ := hinv.arr_exists hrl
        rw [hqe] at he0
        simp at he0
      · rw [hqe] at hdone
        dsimp only at hdone ⊢
        exact ih _ (ps_inv_step s e rest hinv hrl hqe) hdone
    · exact le_antisymm hinv.dep_le (not_lt.mp hrl)

theorem ps_run_terminates (lam msz C : ℚ) (gaps sizes : ℕ → ℚ) (L N : ℕ)
    (hlam : 0 < lam) (hC : 0 < C) (hmsz : 0 ≤ msz)
    (hgaps : ∀ i, 0 ≤ gaps i) (hsizes : ∀ i, 0 ≤ sizes i)
    (hN : ps_arrival_time lam gaps (L - 1) +
      ps_svc_sum msz C sizes (L - 1) < ps_arrival_time lam gaps N) :
    ∀ (fuel : ℕ) (s : PSState), PSInv s →
      s.arrival_rate = lam → s.mean_packet_size = msz → s.link_rate = C →
      s.gaps = gaps → s.sizes = sizes → s.run_length = L →
      L - s.packets_departed + (N - s.packets_arrived) < fuel →
      (ps_run fuel s).2.1 = true := by
  intro fuel
  induction fuel with
  | zero =>
    intro s _ _ _ _ _ _ _ hf
    omega
  | succ n ih =>
    intro s hinv h1 h2 h3 h4 h5 h6 hf
    rw [ps_run]
    split_ifs with hrl
    · rcases hqe : s.event_queue with _ | ⟨e, rest⟩
      · rfl
      · dsimp only
        have hdL : s.packets_departed < L := h6 ▸ hrl
        have hinv2 := ps_inv_step s e rest hinv hrl hqe
        rcases e with ⟨t, ety, p⟩
        rcases ety
        · -- arrival dispatch: the arrival counter strictly increases,
          -- and it stays below N because the pending arrival's time is
          -- bounded by the Lindley bound, which sits below arrT N
          have htime : t =
              ps_arrival_time lam gaps s.packets_arrived := by
            have hpin := (hinv.arr_pin ⟨t, PSEType.packetArrival, p⟩
              (by rw [hqe]; exact List.mem_cons_self _ _) rfl).1
            rw [h1, h4] at hpin
            exact hpin
          have hTB : ps_arrival_time lam gaps s.packets_arrived ≤
              ps_arrival_time lam gaps (L - 1) +
                ps_svc_sum msz C sizes (L - 1) := by
            rcases hsb : s.server_busy with _ | _
            · -- idle: every generated packet has departed
              have hpq := hinv.idle_empty hsb
              have hbb0 : psBusyBit s = 0 := by simp [psBusyBit, hsb]
              have hqs := hinv.queue_shape
              rw [hbb0, hpq] at hqs
              have hlen := congrArg List.length hqs
              simp at hlen
              have hmono := ps_arrival_time_mono lam gaps hlam hgaps
                (show s.packets_arrived ≤ L - 1 by omega)
              have hsvc := ps_svc_sum_nonneg msz C sizes hmsz hC hsizes
                (L - 1)
              linarith
            · -- busy: a departure event precedes the head arrival
              have hbb1 : psBusyBit s = 1 := by simp [psBusyBit, hsb]
              have hdcnt := hinv.dep_count
              rw [hbb1] at hdcnt
              obtain ⟨ed, hedf⟩ : ∃ ed,
                  ed ∈ s.event_queue.filter ps_isDep := by
                rcases hfq : s.event_queue.filter ps_isDep with _ | ⟨x, xs⟩
                · rw [hfq] at hdcnt
                  simp at hdcnt
                · exact ⟨x, List.mem_cons_self _ _⟩
              obtain ⟨hedm, hedd⟩ := List.mem_filter.mp hedf
              have hbound := hinv.dep_pin ed hedm hedd
              rw [h1, h2, h3, h4, h5] at hbound
              have hel : t ≤ ed.time := by
                rw [hqe] at hedm
                rcases List.mem_cons.mp hedm with rfl | hm2
                · exact absurd hedd (by simp [ps_isDep])
                · have hsorted := hqe ▸ hinv.ord.sorted
                  exact (List.pairwise_cons.mp hsorted).1 ed hm2
              have hmon1 := ps_arrival_time_mono lam gaps hlam hgaps
                (show s.packets_departed ≤ L - 1 by omega)
              have hmon2 := ps_svc_sum_mono msz C sizes hmsz hC hsizes
                (show s.packets_departed ≤ L - 1 by omega)
              rw [htime] at hel
              linarith
          have haN : s.packets_arrived < N :=
            ps_arrival_time_lt_reflect lam gaps hlam hgaps
              (lt_of_le_of_lt hTB hN)
          obtain ⟨f1, f2, f3, f4, f5, f6, f7, f8⟩ :=
            ps_arrival_fields
              { s with event_queue := rest, current_time := t } p
          dsimp only at f1 f2 f3 f4 f5 f6 f7 f8
          exact ih _ hinv2 (f1.trans h1) (f2.trans h2) (f3.trans h3)
            (f4.trans h4) (f5.trans h5) (f6.trans h6)
            (by simp only [ps_dispatch]; rw [f7, f8]; omega)
        · -- departure dispatch: the departure counter strictly increases
          obtain ⟨f1, f2, f3, f4, f5, f6, f7, f8⟩ :=
            ps_departure_fields
              { s with event_queue := rest, current_time := t } p
          dsimp only at f1 f2 f3 f4 f5 f6 f7 f8
          exact ih _ hinv2 (f1.trans h1) (f2.trans h2) (f3.trans h3)
            (f4.trans h4) (f5.trans h5) (f6.trans h6)
            (by simp only [ps_dispatch]; rw [f7, f8]; omega)
    · rfl

theorem ps_run_run_length (fuel : ℕ) (s : PSState) :
    (ps_run fuel s).1.run_length = s.run_length := by
  induction fuel generalizing s with
  | zero => rfl
  | succ n ih =>
    rw [ps_run]
    split_ifs with hrl
    · rcases hqe : s.event_queue with _ | ⟨e, rest⟩
      · rfl
      · dsimp only
        rw [ih]
        rcases e with ⟨t, ety, p⟩
        rcases ety
        · exact (ps_arrival_fields _ p).2.2.2.2.2.1
        · exact (ps_departure_fields _ p).2.2.2.2.2.1
    · rfl

theorem ps_arrival_time_const_one (n : ℕ) :
    ps_arrival_time 1 (fun _ => 1) n = (n + 1 : ℚ) := by
  induction n with
  | zero => simp [ps_arrival_time]
  | succ m ih =>
    simp only [ps_arrival_time, ih]
    push_cast
    ring

/-- C9: the packet switch's run loop terminates — under positive rates,
nonnegative draw streams, and arrival times that grow beyond every bound
(which holds for genuine exponential inter-arrival draws) some fuel makes
the loop exit — and whenever it exits, the number of departed packets
equals the configured run_length: the loop stops on a fixed count of
departures, not on a time horizon. -/
theorem c9_switch_terminates_at_run_length
    (lam msz C : ℚ) (L : ℕ) (gaps sizes : ℕ → ℚ)
    (hlam : 0 < lam) (hC : 0 < C) (hmsz : 0 ≤ msz)
    (hgaps : ∀ i, 0 ≤ gaps i) (hsizes : ∀ i, 0 ≤ sizes i)
    (hL : 1 ≤ L)
    (hzeno : ∀ T : ℚ, ∃ n : ℕ, T < ps_arrival_time lam gaps n) :
    (∃ fuel : ℕ,
      (ps_run fuel (ps_seed (ps_state0 lam msz C L gaps sizes))).2.1
        = true) ∧
    (∀ fuel : ℕ,
      (ps_run fuel (ps_seed (ps_state0 lam msz C L gaps sizes))).2.1
        = true →
      (ps_run fuel
        (ps_seed (ps_state0 lam msz C L gaps sizes))).1.packets_departed
        = L) := by
  have hinv0 := ps_inv_seed lam msz C L gaps sizes hlam hC hmsz hgaps hsizes
  constructor
  · obtain ⟨N, hNlt⟩ := hzeno (ps_arrival_time lam gaps (L - 1) +
      ps_svc_sum msz C sizes (L - 1))
    exact ⟨L + N + 1,
      ps_run_terminates lam msz C gaps sizes L N hlam hC hmsz hgaps hsizes
        hNlt (L + N + 1) _ hinv0 rfl rfl rfl rfl rfl rfl
        (show L - 0 + (N - 0) < L + N + 1 by omega)⟩
  · intro fuel hdone
    have hx := ps_run_inv_exit fuel _ hinv0 hdone
    exact hx.trans ((ps_run_run_length fuel _).trans rfl)

theorem c9_switch_terminates_at_run_length_witness :
    (0 : ℚ) < 1 ∧ (1 : ℕ) ≤ 1 ∧
    ((∃ fuel : ℕ,
      (ps_run fuel
        (ps_seed (ps_state0 1 1 1 1 (fun _ => 1) (fun _ => 1)))).2.1
        = true) ∧
    (∀ fuel : ℕ,
      (ps_run fuel
        (ps_seed (ps_state0 1 1 1 1 (fun _ => 1) (fun _ => 1)))).2.1
        = true →
      (ps_run fuel
        (ps_seed (ps_state0 1 1 1 1
          (fun _ => 1) (fun _ => 1)))).1.packets_departed = 1)) :=
  ⟨by norm_num, le_refl 1,
   c9_switch_terminates_at_run_length 1 1 1 1 (fun _ => 1) (fun _ => 1)
     (by norm_num) (by norm_num) (by norm_num) (fun i => by norm_num)
     (fun i => by norm_num) (le_refl 1)
     (fun T => ⟨Nat.ceil T, by
       rw [ps_arrival_time_const_one]
       have h := Nat.le_ceil T
       linarith⟩)⟩
